import Mathlib

set_option maxRecDepth 40000

/-!
# Verification of the uutils `tar` utility against its specification

The repository contains the CLI dispatch (`tar.rs`), the error taxonomy
(`errors.rs`) and stubbed operation entry points; the archive codec, the
directory walker and the extraction engine are specified in `spec.md` but
their code is not present in the repository, so those components are
modelled here directly from the specification text (each such definition
carries a `Modelled from the spec:` doc comment).  Bytes are natural
numbers `< 256`, byte streams are `List Nat`, and filesystem trees are
finite path-keyed stores.
-/

deriving instance DecidableEq for Except

namespace TarSpec

/-! ## Definitions -/

/-- A run of `n` zero bytes. -/
def zeros (n : Nat) : List Nat := List.replicate n 0

/-- Keep the bytes before the first NUL (ustar text fields are NUL padded). -/
def trimNul (s : List Nat) : List Nat := s.takeWhile (fun b => b ≠ 0)

/-- Pad (or truncate) a byte string to exactly `w` bytes using NULs. -/
def padField (w : Nat) (s : List Nat) : List Nat :=
  s.take w ++ zeros (w - s.length)

/-- `w` ASCII octal digits of `n`, most significant first. -/
def octDigits : Nat → Nat → List Nat
  | 0, _ => []
  | w + 1, n => octDigits w (n / 8) ++ [48 + n % 8]

/-- Modelled from the spec: numeric header fields are NUL-terminated
octal ASCII (`w` digits followed by a NUL). -/
def octField (w : Nat) (n : Nat) : List Nat := octDigits w n ++ [0]

/-- Modelled from the spec: the checksum field is a 6-digit octal string
followed by NUL and space. -/
def chkField (n : Nat) : List Nat := octDigits 6 n ++ [0, 32]

/-- Is a byte an ASCII octal digit? -/
def isOct (b : Nat) : Bool := decide (48 ≤ b) && decide (b ≤ 55)

/-- Parse the leading octal-digit run of a numeric field (NUL or space
terminates the run; an all-NUL field parses as zero). -/
def parseOct (s : List Nat) : Nat :=
  (s.takeWhile isOct).foldl (fun a b => a * 8 + (b - 48)) 0

/-- The raw fields of one ustar header block. -/
structure RawHeader where
  name : List Nat
  mode : Nat
  uid : Nat
  gid : Nat
  size : Nat
  mtime : Nat
  typeflag : Nat
  linkname : List Nat
deriving DecidableEq

/-- The `magic` ("ustar\0") and `version` ("00") bytes. -/
def ustarMagic : List Nat := [117, 115, 116, 97, 114, 0, 48, 48]

/-- The first 148 bytes of a header: name, mode, uid, gid, size, mtime. -/
def hdrBody (r : RawHeader) : List Nat :=
  padField 100 r.name ++ octField 7 r.mode ++ octField 7 r.uid ++
    octField 7 r.gid ++ octField 11 r.size ++ octField 11 r.mtime

/-- Bytes 156..512 of a header: typeflag, linkname, magic+version,
uname/gname (empty), devmajor/devminor, prefix and padding (all zero). -/
def hdrTail (r : RawHeader) : List Nat :=
  r.typeflag :: (padField 100 r.linkname ++ ustarMagic ++ zeros 64 ++
    octField 7 0 ++ octField 7 0 ++ zeros 167)

/-- Modelled from the spec: `HeaderCodec.encode` lays out the fixed-offset
ustar fields and stores, in the checksum field, the unsigned sum of all
512 bytes with the checksum field itself counted as eight spaces. -/
def encodeHeader (r : RawHeader) : List Nat :=
  hdrBody r ++ chkField ((hdrBody r).sum + 256 + (hdrTail r).sum) ++ hdrTail r

/-- The checksum a block should carry: the unsigned sum of all 512 bytes
with the 8-byte checksum field (offsets 148..156) treated as spaces. -/
def chkSumOf (B : List Nat) : Nat :=
  ((B.take 148) ++ List.replicate 8 32 ++ (B.drop 156)).sum

/-- Errors of the modelled codec and pipeline (spec §7 taxonomy). -/
inductive TarErr where
  | formatError
  | checksumError
  | malformedHeader
  | truncatedArchive
  | corruptArchive
  | accessError (path : List (List Nat))
  | unsafePathError (name : List Nat)
  | danglingLinkError
  | unsupportedType
  | ioError
deriving DecidableEq

/-- Modelled from the spec: `HeaderCodec.decode` validates the checksum
(hard error on mismatch), checks the ustar magic, and reads the
fixed-offset fields back; `prefix` (empty in everything we encode) is
joined to the name with a slash when present. -/
def decodeHeader (B : List Nat) : Except TarErr RawHeader :=
  if B.length = 512 then
    if parseOct ((B.drop 148).take 8) = chkSumOf B then
      if (B.drop 257).take 8 = ustarMagic then
        let nameF := trimNul (B.take 100)
        let pfx := trimNul ((B.drop 345).take 155)
        Except.ok
          { name := if pfx = [] then nameF else pfx ++ 47 :: nameF
            mode := parseOct ((B.drop 100).take 8)
            uid := parseOct ((B.drop 108).take 8)
            gid := parseOct ((B.drop 116).take 8)
            size := parseOct ((B.drop 124).take 12)
            mtime := parseOct ((B.drop 136).take 12)
            typeflag := (B.drop 156).headD 0
            linkname := trimNul ((B.drop 157).take 100) }
      else Except.error TarErr.malformedHeader
    else Except.error TarErr.checksumError
  else Except.error TarErr.malformedHeader

/-- A byte string usable in name-like fields: nonzero bytes below 256. -/
def bytesOk (s : List Nat) : Bool := s.all (fun b => decide (0 < b) && decide (b < 256))

/-- Arbitrary payload bytes: below 256 (zero allowed). -/
def contentOk (s : List Nat) : Bool := s.all (fun b => decide (b < 256))

/-- Field-width side conditions under which a raw header encodes faithfully. -/
def validRawB (r : RawHeader) : Bool :=
  bytesOk r.name && decide (r.name.length ≤ 100) &&
  bytesOk r.linkname && decide (r.linkname.length ≤ 100) &&
  decide (r.mode < 8 ^ 7) && decide (r.uid < 8 ^ 7) && decide (r.gid < 8 ^ 7) &&
  decide (r.size < 8 ^ 11) && decide (r.mtime < 8 ^ 11) &&
  decide (r.typeflag < 256)

/-- Modelled from the spec: the closed variant of archive member kinds. -/
inductive EntryType where
  | regular
  | directory
  | symlink (target : List Nat)
  | hardlink (target : List Nat)
  | other (code : Nat)
deriving DecidableEq

/-- Modelled from the spec: `EntryModel`, one archive member (its payload
is carried inline; `size` is `data.length`). -/
structure EntryModel where
  name : List Nat
  etype : EntryType
  mode : Nat
  uid : Nat
  gid : Nat
  mtime : Nat
  data : List Nat
deriving DecidableEq

/-- The ustar typeflag byte of an entry kind. -/
def tfOf : EntryType → Nat
  | EntryType.regular => 48
  | EntryType.directory => 53
  | EntryType.symlink _ => 50
  | EntryType.hardlink _ => 49
  | EntryType.other c => c

/-- The link target carried by an entry kind (empty for non-link kinds). -/
def linkOf : EntryType → List Nat
  | EntryType.symlink t => t
  | EntryType.hardlink t => t
  | _ => []

/-- Reader-side mapping from a typeflag byte and linkname back to a kind
(a NUL typeflag is the historical spelling of a regular file). -/
def typeOf (tf : Nat) (link : List Nat) : EntryType :=
  if tf = 48 ∨ tf = 0 then EntryType.regular
  else if tf = 53 then EntryType.directory
  else if tf = 50 then EntryType.symlink link
  else if tf = 49 then EntryType.hardlink link
  else EntryType.other tf

/-- The raw header an entry serializes to (long names/links are truncated
here; the full strings travel in extension blocks). -/
def hdrOf (e : EntryModel) : RawHeader :=
  { name := e.name.take 100
    mode := e.mode
    uid := e.uid
    gid := e.gid
    size := e.data.length
    mtime := e.mtime
    typeflag := tfOf e.etype
    linkname := (linkOf e.etype).take 100 }

/-- Number of zero bytes needed to pad `n` payload bytes to a 512 boundary. -/
def padLen (n : Nat) : Nat := (512 - n % 512) % 512

/-- Modelled from the spec: payload blocks are the data padded with zero
bytes to a multiple of 512. -/
def padData (d : List Nat) : List Nat := d ++ zeros (padLen d.length)

/-- The name used by GNU long-name/long-link pseudo entries. -/
def longLinkName : List Nat := [46, 47, 46, 47, 64, 76, 111, 110, 103, 76, 105, 110, 107]

/-- The raw header of a GNU long-name (`tf = 76`) or long-link (`tf = 75`)
extension pseudo entry carrying the string `s` as payload. -/
def longHdr (tf : Nat) (s : List Nat) : RawHeader :=
  { name := longLinkName, mode := 0, uid := 0, gid := 0, size := s.length
    mtime := 0, typeflag := tf, linkname := [] }

/-- Modelled from the spec: one GNU extension block pair (header plus the
padded long string) emitted before the real header. -/
def auxBlock (tf : Nat) (s : List Nat) : List Nat :=
  encodeHeader (longHdr tf s) ++ padData s

/-- Modelled from the spec: `ArchiveWriter` serializes one entry — extension
blocks when the name or link target exceeds 100 bytes, then the encoded
header, then the padded payload. -/
def encodeEntry (e : EntryModel) : List Nat :=
  (if 100 < e.name.length then auxBlock 76 e.name else []) ++
  (if 100 < (linkOf e.etype).length then auxBlock 75 (linkOf e.etype) else []) ++
  encodeHeader (hdrOf e) ++ padData e.data

/-- The concatenated serialized entries of an archive, without terminator. -/
def writeBody : List EntryModel → List Nat
  | [] => []
  | e :: es => encodeEntry e ++ writeBody es

/-- Modelled from the spec: a complete archive is the serialized entries
followed by exactly two all-zero 512-byte terminator blocks. -/
def writeArchive (es : List EntryModel) : List Nat := writeBody es ++ zeros 1024

/-- Continuation of the reader after decoding a header block: consume the
declared (padded) payload, route GNU long-name/long-link pseudo entries
into the pending slots, and otherwise emit the entry; a decode failure is
surfaced as archive corruption. -/
def afterHdr
    (recur : Option (List Nat) → Option (List Nat) → List Nat →
      Except TarErr (List EntryModel))
    (pn pl : Option (List Nat)) (rest : List Nat) :
    Except TarErr RawHeader → Except TarErr (List EntryModel)
  | Except.error _ => Except.error TarErr.corruptArchive
  | Except.ok r =>
    if rest.length < r.size + padLen r.size then
      Except.error TarErr.truncatedArchive
    else if r.typeflag = 76 then
      recur (some (rest.take r.size)) pl (rest.drop (r.size + padLen r.size))
    else if r.typeflag = 75 then
      recur pn (some (rest.take r.size)) (rest.drop (r.size + padLen r.size))
    else
      Except.map
        (fun es =>
          { name := pn.getD r.name
            etype := typeOf r.typeflag (pl.getD r.linkname)
            mode := r.mode, uid := r.uid, gid := r.gid
            mtime := r.mtime, data := rest.take r.size } :: es)
        (recur none none (rest.drop (r.size + padLen r.size)))

/-- Modelled from the spec: `ArchiveReader` — reads a header block, absorbs
GNU long-name/long-link pseudo entries into the pending slots, skips each
payload by its declared (padded) size, stops at the two-zero-block
terminator, and reports truncation and corruption.  `fuel` only bounds the
recursion; `readArchive` supplies enough for any input. -/
def readLoop : Nat → Option (List Nat) → Option (List Nat) → List Nat →
    Except TarErr (List EntryModel)
  | 0, _, _, _ => Except.error TarErr.truncatedArchive
  | Nat.succ fuel, pn, pl, bytes =>
    if bytes.length < 512 then Except.error TarErr.truncatedArchive
    else if bytes.take 512 = zeros 512 then
      if (bytes.drop 512).length < 512 then Except.error TarErr.truncatedArchive
      else if (bytes.drop 512).take 512 = zeros 512 then Except.ok []
      else Except.error TarErr.corruptArchive
    else
      afterHdr (readLoop fuel) pn pl (bytes.drop 512) (decodeHeader (bytes.take 512))

/-- Modelled from the spec: decode a whole archive byte stream into its
entry sequence. -/
def readArchive (bytes : List Nat) : Except TarErr (List EntryModel) :=
  readLoop (bytes.length + 1) none none bytes

/-- Side conditions under which an entry is encodable: byte-ranged NUL-free
name and link target, field-width bounds, payload only on regular files,
and no `other` code that collides with a reserved typeflag. -/
def validEntryB (e : EntryModel) : Bool :=
  bytesOk e.name && decide (e.name.length < 8 ^ 11) &&
  bytesOk (linkOf e.etype) && decide ((linkOf e.etype).length < 8 ^ 11) &&
  decide (e.mode < 8 ^ 7) && decide (e.uid < 8 ^ 7) && decide (e.gid < 8 ^ 7) &&
  decide (e.mtime < 8 ^ 11) &&
  contentOk e.data && decide (e.data.length < 8 ^ 11) &&
  (match e.etype with
   | EntryType.regular => true
   | EntryType.other c =>
     decide (0 < c) && decide (c < 256) && decide (c ≠ 48) && decide (c ≠ 49) &&
     decide (c ≠ 50) && decide (c ≠ 53) && decide (c ≠ 75) && decide (c ≠ 76) &&
     e.data.isEmpty
   | _ => e.data.isEmpty)

/-- All entries of a list are encodable. -/
def validEntriesB (es : List EntryModel) : Bool := es.all validEntryB

/-- Number of reader iterations one serialized entry accounts for. -/
def entryCost (e : EntryModel) : Nat :=
  (if 100 < e.name.length then 1 else 0) +
  (if 100 < (linkOf e.etype).length then 1 else 0) + 1

/-- Total reader iterations of an entry list. -/
def listCost : List EntryModel → Nat
  | [] => 0
  | e :: es => entryCost e + listCost es

/-- The flags and positional arguments `uumain` consults after parsing
(`tar.rs`): the `-x` and `-c` flags, the `-f` archive argument, the
positional file list, and `-v`. -/
structure CliMatches where
  extract : Bool
  create : Bool
  file : Option String
  files : List String
  verbose : Bool
deriving DecidableEq

/-- The error `uumain` returns: a `USimpleError` with exit code and message. -/
structure UuError where
  code : Int
  msg : String
deriving DecidableEq

/-- The operation an invocation ends up performing (the operation stubs
`extract_archive`/`create_archive` return `Ok(())`, so reaching one of them
is the observable outcome). -/
inductive UuAction where
  | extracted (archive : String)
  | created (archive : String) (files : List String)
deriving DecidableEq

/-- The control flow of `uumain` (`tar.rs` lines 35–81): the extract flag is
checked first and returns; then the create flag, whose branch refuses an
empty file list before calling `create_archive`; otherwise the usage error. -/
def uumain (m : CliMatches) : Except UuError UuAction :=
  if m.extract then
    match m.file with
    | none => Except.error { code := 1, msg := "tar: option requires an argument -- f" }
    | some f => Except.ok (UuAction.extracted f)
  else if m.create then
    match m.file with
    | none => Except.error { code := 1, msg := "tar: option requires an argument -- f" }
    | some f =>
      if m.files = [] then
        Except.error
          { code := 1, msg := "tar: Cowardly refusing to create an empty archive" }
      else Except.ok (UuAction.created f m.files)
  else
    Except.error
      { code := 1
        msg := "tar: You must specify one of the -Acdtrux, --delete or --test-label options" }

/-- Whether an invocation result reached `create_archive` (the only place
archive bytes could be produced). -/
def reachedCreate : Except UuError UuAction → Bool
  | Except.ok (UuAction.created _ _) => true
  | _ => false

/-- `TarError` (`errors.rs` lines 11–23). -/
inductive TarError where
  | ioError (msg : String)
  | invalidArchive (msg : String)
  | fileNotFound (path : String)
  | permissionDenied (path : String)
  | tarOperationError (msg : String)
deriving DecidableEq

/-- `UError::code` for `TarError` (`errors.rs` lines 46–56). -/
def TarError.code : TarError → Int
  | TarError.ioError _ => 1
  | TarError.invalidArchive _ => 2
  | TarError.fileNotFound _ => 1
  | TarError.permissionDenied _ => 1
  | TarError.tarOperationError _ => 1

/-- Is a `TarError` the invalid-archive variant? -/
def TarError.isInvalidArchive : TarError → Bool
  | TarError.invalidArchive _ => true
  | _ => false

/-- A filesystem path as a list of name components (byte strings). -/
abbrev FsPath := List (List Nat)

/-- Modelled from the spec: the kinds of filesystem objects the pipeline
reproduces (files carry content, mode and mtime; directories a mode;
symlinks a target — spec §4.6 restores mode/mtime for files, mode for
directories, and only the target for symlinks). -/
inductive Node where
  | file (content : List Nat) (mode : Nat) (mtime : Nat)
  | dir (mode : Nat)
  | symlink (target : List Nat)
deriving DecidableEq

/-- A filesystem subtree as a finite path-keyed store. -/
abbrev Fs := List (FsPath × Node)

/-- Join path components with `/` (0x2F). -/
def joinPath : FsPath → List Nat
  | [] => []
  | [c] => c
  | c :: cs => c ++ 47 :: joinPath cs

/-- Split an archive-member name on `/` (0x2F); never returns `[]`. -/
def splitPath : List Nat → FsPath
  | [] => [[]]
  | b :: bs =>
    if b = 47 then [] :: splitPath bs
    else
      match splitPath bs with
      | c :: cs => (b :: c) :: cs
      | [] => [[b]]

/-- Strict lexicographic order on byte strings. -/
def listLtB : List Nat → List Nat → Bool
  | [], [] => false
  | [], _ :: _ => true
  | _ :: _, [] => false
  | a :: as, b :: bs => decide (a < b) || (decide (a = b) && listLtB as bs)

/-- Strict lexicographic order on paths (a parent sorts before its
descendants, so walker output lists directories first — spec §4.3). -/
def pathLtB : FsPath → FsPath → Bool
  | [], [] => false
  | [], _ :: _ => true
  | _ :: _, [] => false
  | c :: cs, d :: ds => listLtB c d || (decide (c = d) && pathLtB cs ds)

/-- Keys strictly ascending (deterministic stable order, unique paths). -/
def pairB : Fs → Bool
  | [] => true
  | x :: rest => rest.all (fun y => pathLtB x.1 y.1) && pairB rest

/-- One component is well formed: nonempty, NUL-free byte-ranged, no `/`. -/
def compOk (c : List Nat) : Bool :=
  decide (c ≠ []) &&
  c.all (fun b => decide (0 < b) && decide (b < 256) && decide (b ≠ 47))

/-- A store path is well formed: nonempty, good components, no `..`
component, and joined length within the size field range. -/
def pathOk (p : FsPath) : Bool :=
  decide (p ≠ []) && p.all (fun c => compOk c && decide (c ≠ [46, 46])) &&
  decide ((joinPath p).length < 8 ^ 11)

/-- A node is well formed: byte-ranged content within field bounds. -/
def nodeOk : Node → Bool
  | Node.file content mode mtime =>
    contentOk content && decide (content.length < 8 ^ 11) &&
    decide (mode < 8 ^ 7) && decide (mtime < 8 ^ 11)
  | Node.dir mode => decide (mode < 8 ^ 7)
  | Node.symlink target => bytesOk target && decide (target.length < 8 ^ 11)

/-- A well-formed filesystem snapshot: strictly sorted unique paths, all
paths and nodes well formed. -/
def wellFormedFs (fs : Fs) : Bool :=
  pairB fs && fs.all (fun pr => pathOk pr.1 && nodeOk pr.2)

/-- Modelled from the spec: the EntryModel the walker emits for one
filesystem object (names joined with `/`, numeric owner ids; symlinks are
zero-length entries carrying the target). -/
def entryOf (p : FsPath) (n : Node) : EntryModel :=
  match n with
  | Node.file content mode mtime =>
    { name := joinPath p, etype := EntryType.regular, mode := mode,
      uid := 0, gid := 0, mtime := mtime, data := content }
  | Node.dir mode =>
    { name := joinPath p, etype := EntryType.directory, mode := mode,
      uid := 0, gid := 0, mtime := 0, data := [] }
  | Node.symlink target =>
    { name := joinPath p, etype := EntryType.symlink target, mode := 511,
      uid := 0, gid := 0, mtime := 0, data := [] }

/-- Modelled from the spec: `DirectoryWalker` (§4.3) — visit the snapshot in
its deterministic order, failing with a per-path `AccessError` that aborts
the whole walk as soon as an unreadable path is met. -/
def walkEntries (readable : FsPath → Bool) : Fs → Except TarErr (List EntryModel)
  | [] => Except.ok []
  | (p, n) :: rest =>
    if readable p then
      match walkEntries readable rest with
      | Except.ok es => Except.ok (entryOf p n :: es)
      | Except.error err => Except.error err
    else Except.error (TarErr.accessError p)

/-- Find the node stored at a path. -/
def lookupStore (p : FsPath) : Fs → Option Node
  | [] => none
  | (q, n) :: rest => if q = p then some n else lookupStore p rest

/-- Is `root` a component-wise ancestor-or-self of `p`? -/
def underB : FsPath → FsPath → Bool
  | [], _ => true
  | _ :: _, [] => false
  | c :: cs, d :: ds => decide (c = d) && underB cs ds

/-- Modelled from the spec: walking one root — a nonexistent root is an
access error naming it, otherwise the subtree is emitted in order. -/
def walkRoot (fs : Fs) (readable : FsPath → Bool) (root : FsPath) :
    Except TarErr (List EntryModel) :=
  match lookupStore root fs with
  | none => Except.error (TarErr.accessError root)
  | some _ => walkEntries readable (fs.filter (fun pr => underB root pr.1))

/-- Walk a list of roots, concatenating; the first failure aborts. -/
def walkRoots (fs : Fs) (readable : FsPath → Bool) :
    List FsPath → Except TarErr (List EntryModel)
  | [] => Except.ok []
  | r :: rs =>
    match walkRoot fs readable r with
    | Except.error err => Except.error err
    | Except.ok es =>
      match walkRoots fs readable rs with
      | Except.error err => Except.error err
      | Except.ok es2 => Except.ok (es ++ es2)

/-- Modelled from the spec: the create pipeline — walk the selected roots,
then serialize (`create_archive` in the repository is a stub; spec §2 data
flow). -/
def createPipeline (fs : Fs) (readable : FsPath → Bool) (roots : List FsPath) :
    Except TarErr (List Nat) :=
  match walkRoots fs readable roots with
  | Except.error err => Except.error err
  | Except.ok es => Except.ok (writeArchive es)

/-- An archive-member name is safe to extract: nonempty, not absolute, and
free of `..` (and empty) components — spec §4.6 path safety. -/
def safeName (name : List Nat) : Bool :=
  decide (name ≠ []) && decide (name.head? ≠ some 47) &&
  (splitPath name).all (fun c => decide (c ≠ []) && decide (c ≠ [46, 46]))

/-- Ordered insert with overwrite at an existing key. -/
def storeInsert (p : FsPath) (n : Node) : Fs → Fs
  | [] => [(p, n)]
  | (q, m) :: rest =>
    if q = p then (p, n) :: rest
    else if pathLtB q p then (q, m) :: storeInsert p n rest
    else (p, n) :: (q, m) :: rest

/-- Modelled from the spec: `ExtractionEngine` (§4.6) applied to one entry:
unsafe names are rejected (never rewritten) unless absolute-names mode is
set; files overwrite existing files but never an existing directory;
directories are created or re-moded; symlinks are created; hard links copy
a previously extracted node or fail as dangling; exotic kinds are rejected. -/
def extractEntry (absNames : Bool) (st : Fs) (e : EntryModel) : Except TarErr Fs :=
  if absNames || safeName e.name then
    match e.etype with
    | EntryType.regular =>
      match lookupStore (splitPath e.name) st with
      | some (Node.dir _) => Except.error TarErr.ioError
      | _ => Except.ok
          (storeInsert (splitPath e.name) (Node.file e.data e.mode e.mtime) st)
    | EntryType.directory =>
      match lookupStore (splitPath e.name) st with
      | some (Node.file _ _ _) => Except.error TarErr.ioError
      | _ => Except.ok (storeInsert (splitPath e.name) (Node.dir e.mode) st)
    | EntryType.symlink t =>
      Except.ok (storeInsert (splitPath e.name) (Node.symlink t) st)
    | EntryType.hardlink t =>
      match lookupStore (splitPath t) st with
      | some n => Except.ok (storeInsert (splitPath e.name) n st)
      | none => Except.error TarErr.danglingLinkError
    | EntryType.other _ => Except.error TarErr.unsupportedType
  else Except.error (TarErr.unsafePathError e.name)

/-- Extraction in stream order; the first failure aborts. -/
def extractLoop (absNames : Bool) (st : Fs) : List EntryModel → Except TarErr Fs
  | [] => Except.ok st
  | e :: es =>
    match extractEntry absNames st e with
    | Except.ok st2 => extractLoop absNames st2 es
    | Except.error err => Except.error err

/-- Modelled from the spec: extract an entry stream into an empty
destination root. -/
def extractEntries (absNames : Bool) (es : List EntryModel) : Except TarErr Fs :=
  extractLoop absNames [] es

/-- Did an `Except` computation succeed? -/
def isOkB {ε α : Type} : Except ε α → Bool
  | Except.ok _ => true
  | Except.error _ => false

/-- The whole pipeline of spec §8 round-trip: walk, write, read, extract. -/
def roundTrip (fs : Fs) : Except TarErr Fs :=
  match walkEntries (fun _ => true) fs with
  | Except.error err => Except.error err
  | Except.ok es =>
    match readArchive (writeArchive es) with
    | Except.error err => Except.error err
    | Except.ok es2 => extractEntries false es2

/-- A small valid raw header (name "hi", regular file, size 3). -/
def rawWitness : RawHeader :=
  { name := [104, 105], mode := 420, uid := 0, gid := 0, size := 3,
    mtime := 99, typeflag := 48, linkname := [] }

/-- A sample tree: nested directories, an empty file, a Unicode name, binary
content, a 110-byte name and a symlink. -/
def fsWitness : Fs :=
  [([[97]], Node.dir 493),
   ([[97], [101, 109, 112, 116, 121]], Node.file [] 420 5),
   ([[97], [195, 169]], Node.file [0, 255, 7, 13] 420 6),
   ([[98]], Node.dir 509),
   ([[98], List.replicate 110 120], Node.file [1, 2, 3] 420 7),
   ([[99]], Node.symlink [97, 47, 101, 109, 112, 116, 121])]

/-- A regular file entry with a 90-byte name. -/
def e90W : EntryModel :=
  { name := List.replicate 90 97, etype := EntryType.regular, mode := 420,
    uid := 0, gid := 0, mtime := 0, data := [104, 105] }

/-- A regular file entry with a 250-byte name. -/
def e250W : EntryModel :=
  { name := List.replicate 250 98, etype := EntryType.regular, mode := 493,
    uid := 1000, gid := 1000, mtime := 1234, data := [0, 1, 2, 3, 4] }

/-- An entry named `../../etc/passwd`. -/
def badEntryW : EntryModel :=
  { name := [46, 46, 47, 46, 46, 47, 101, 116, 99, 47, 112, 97, 115, 115, 119, 100],
    etype := EntryType.regular, mode := 420, uid := 0, gid := 0, mtime := 0,
    data := [120] }

/-- An entry named `a.txt`. -/
def okEntryW : EntryModel :=
  { name := [97, 46, 116, 120, 116], etype := EntryType.regular, mode := 420,
    uid := 0, gid := 0, mtime := 0, data := [120] }

/-- The store that extracting `okEntryW` produces. -/
def stW : Fs := [([[97, 46, 116, 120, 116]], Node.file [120] 420 0)]

/-- A two-object tree for the access-error witnesses. -/
def fs9W : Fs := [([[97]], Node.dir 493), ([[98]], Node.file [120] 420 0)]

/-- A root path absent from `fs9W`. -/
def root9W : FsPath := [[110]]

/-- A readability oracle marking `fs9W`'s second path unreadable. -/
def rd9W : FsPath → Bool := fun p => decide (p ≠ [[98]])

/-! ## Theorems -/

@[simp] theorem zeros_length (n : Nat) : (zeros n).length = n := by
  simp [zeros]

@[simp] theorem padField_length (w : Nat) (s : List Nat) :
    (padField w s).length = w := by
  simp [padField, zeros]
  omega

@[simp] theorem octDigits_length (w n : Nat) : (octDigits w n).length = w := by
  induction w generalizing n with
  | zero => rfl
  | succ w ih => simp [octDigits, ih]

@[simp] theorem octField_length (w n : Nat) : (octField w n).length = w + 1 := by
  simp [octField]

@[simp] theorem chkField_length (n : Nat) : (chkField n).length = 8 := by
  simp [chkField]

@[simp] theorem ustarMagic_length : ustarMagic.length = 8 := rfl

theorem hdrBody_length (r : RawHeader) : (hdrBody r).length = 148 := by
  simp [hdrBody]

theorem hdrTail_length (r : RawHeader) : (hdrTail r).length = 356 := by
  simp [hdrTail]

theorem encodeHeader_length (r : RawHeader) : (encodeHeader r).length = 512 := by
  unfold encodeHeader
  rw [List.length_append, List.length_append, hdrBody_length, chkField_length,
    hdrTail_length]

theorem octDigits_isOct (w n : Nat) : ∀ b ∈ octDigits w n, isOct b = true := by
  induction w generalizing n with
  | zero => intro b hb; simp [octDigits] at hb
  | succ w ih =>
    intro b hb
    simp only [octDigits, List.mem_append, List.mem_singleton] at hb
    rcases hb with hb | hb
    · exact ih _ b hb
    · subst hb
      have : n % 8 < 8 := Nat.mod_lt _ (by omega)
      simp [isOct]
      omega

theorem takeWhile_append_all {p : Nat → Bool} {xs : List Nat} (ys : List Nat)
    (h : ∀ x ∈ xs, p x = true) :
    (xs ++ ys).takeWhile p = xs ++ ys.takeWhile p := by
  induction xs with
  | nil => simp
  | cons a xs ih =>
    have ha : p a = true := h a (by simp)
    simp [List.takeWhile_cons, ha, ih (fun x hx => h x (by simp [hx]))]

theorem foldOct_digits (w n a : Nat) (h : n < 8 ^ w) :
    (octDigits w n).foldl (fun a b => a * 8 + (b - 48)) a = a * 8 ^ w + n := by
  induction w generalizing n a with
  | zero =>
    have : n = 0 := by simpa using h
    simp [octDigits, this]
  | succ w ih =>
    have hdiv : n / 8 < 8 ^ w := by
      have := Nat.div_lt_div_of_lt_of_dvd (show (8 : Nat) ∣ 8 ^ (w + 1) by
        exact Dvd.intro (8 ^ w) (by ring)) h
      simpa [Nat.pow_succ, Nat.mul_div_cancel_left] using
        Nat.div_lt_of_lt_mul (by simpa [Nat.pow_succ, Nat.mul_comm] using h)
    simp only [octDigits, List.foldl_append, List.foldl_cons, List.foldl_nil]
    rw [ih _ _ hdiv]
    have h48 : 48 + n % 8 - 48 = n % 8 := by omega
    rw [h48]
    have := Nat.div_add_mod n 8
    ring_nf
    omega

theorem parseOct_octDigits_append (w n : Nat) (rest : List Nat)
    (hn : n < 8 ^ w) (hrest : rest.takeWhile isOct = []) :
    parseOct (octDigits w n ++ rest) = n := by
  unfold parseOct
  rw [takeWhile_append_all rest (octDigits_isOct w n), hrest, List.append_nil]
  simpa using foldOct_digits w n 0 hn

theorem parseOct_octField (w n : Nat) (hn : n < 8 ^ w) :
    parseOct (octField w n) = n := by
  unfold octField
  exact parseOct_octDigits_append w n [0] hn (by simp [List.takeWhile, isOct])

theorem parseOct_chkField (n : Nat) (hn : n < 8 ^ 6) :
    parseOct (chkField n) = n := by
  unfold chkField
  exact parseOct_octDigits_append 6 n [0, 32] hn (by simp [List.takeWhile, isOct])

theorem trimNul_append_zeros (s : List Nat) (k : Nat)
    (h : ∀ b ∈ s, b ≠ 0) : trimNul (s ++ zeros k) = s := by
  unfold trimNul
  rw [takeWhile_append_all (zeros k) (by intro x hx; simpa using h x hx)]
  cases k with
  | zero => simp [zeros]
  | succ k => simp [zeros, List.replicate_succ, List.takeWhile_cons]

theorem trimNul_zeros (k : Nat) : trimNul (zeros k) = [] := by
  have := trimNul_append_zeros [] k (by intro b hb; simp at hb)
  simpa using this

theorem trimNul_padField (w : Nat) (s : List Nat) (hw : s.length ≤ 100)
    (hws : 100 ≤ w) (h : ∀ b ∈ s, b ≠ 0) : trimNul (padField w s) = s := by
  unfold padField
  rw [List.take_of_length_le (by omega)]
  exact trimNul_append_zeros s _ h

theorem sum_le_of_bytes (l : List Nat) (h : ∀ b ∈ l, b < 256) :
    l.sum ≤ 255 * l.length := by
  induction l with
  | nil => simp
  | cons a l ih =>
    have ha := h a (by simp)
    have hl := ih (fun b hb => h b (by simp [hb]))
    simp only [List.sum_cons, List.length_cons]
    omega

theorem mem_zeros (b n : Nat) (h : b ∈ zeros n) : b = 0 :=
  (List.eq_of_mem_replicate h)

theorem mem_padField_lt (w : Nat) (s : List Nat) (hs : ∀ b ∈ s, b < 256) :
    ∀ b ∈ padField w s, b < 256 := by
  intro b hb
  rcases List.mem_append.mp hb with h1 | h1
  · exact hs b (List.take_subset _ _ h1)
  · rw [mem_zeros b _ h1]; omega

theorem mem_octDigits_lt (w n : Nat) : ∀ b ∈ octDigits w n, b < 256 := by
  intro b hb
  have := octDigits_isOct w n b hb
  simp only [isOct, Bool.and_eq_true, decide_eq_true_eq] at this
  omega

theorem mem_octField_lt (w n : Nat) : ∀ b ∈ octField w n, b < 256 := by
  intro b hb
  rcases List.mem_append.mp hb with h1 | h1
  · exact mem_octDigits_lt w n b h1
  · simp only [List.mem_singleton] at h1; omega

theorem mem_chkField_lt (n : Nat) : ∀ b ∈ chkField n, b < 256 := by
  intro b hb
  rcases List.mem_append.mp hb with h1 | h1
  · exact mem_octDigits_lt 6 n b h1
  · simp only [List.mem_cons, List.not_mem_nil, or_false] at h1
    rcases h1 with rfl | rfl <;> omega

theorem bytesOk_lt (s : List Nat) (h : bytesOk s = true) : ∀ b ∈ s, b < 256 := by
  intro b hb
  have := List.all_eq_true.mp h b hb
  simp only [Bool.and_eq_true, decide_eq_true_eq] at this
  omega

theorem bytesOk_ne_zero (s : List Nat) (h : bytesOk s = true) : ∀ b ∈ s, b ≠ 0 := by
  intro b hb
  have := List.all_eq_true.mp h b hb
  simp only [Bool.and_eq_true, decide_eq_true_eq] at this
  omega

theorem mem_hdrBody_lt (r : RawHeader) (hname : bytesOk r.name = true) :
    ∀ b ∈ hdrBody r, b < 256 := by
  intro b hb
  unfold hdrBody at hb
  simp only [List.append_assoc, List.mem_append] at hb
  rcases hb with h | h | h | h | h | h
  · exact mem_padField_lt _ _ (bytesOk_lt _ hname) b h
  · exact mem_octField_lt _ _ b h
  · exact mem_octField_lt _ _ b h
  · exact mem_octField_lt _ _ b h
  · exact mem_octField_lt _ _ b h
  · exact mem_octField_lt _ _ b h

theorem mem_hdrTail_lt (r : RawHeader) (hlink : bytesOk r.linkname = true)
    (htf : r.typeflag < 256) : ∀ b ∈ hdrTail r, b < 256 := by
  intro b hb
  unfold hdrTail at hb
  simp only [List.append_assoc, List.mem_cons, List.mem_append] at hb
  rcases hb with h | h | h | h | h | h | h
  · omega
  · exact mem_padField_lt _ _ (bytesOk_lt _ hlink) b h
  · simp only [ustarMagic, List.mem_cons, List.not_mem_nil, or_false] at h
    rcases h with rfl | rfl | rfl | rfl | rfl | rfl | rfl | rfl <;> omega
  · rw [mem_zeros b _ h]; omega
  · exact mem_octField_lt _ _ b h
  · exact mem_octField_lt _ _ b h
  · rw [mem_zeros b _ h]; omega

theorem drop_chunk (m w : Nat) {B a rest : List Nat} {n : Nat}
    (hB : B.drop n = a ++ rest) (ha : a.length = w) (hm : m = n + w) :
    B.drop m = rest := by
  have h1 : B.drop m = (B.drop n).drop w := by
    rw [List.drop_drop, hm, Nat.add_comm]
  rw [h1, hB]
  exact List.drop_left' ha

theorem take_chunk {B a rest : List Nat} {w : Nat}
    (hB : B = a ++ rest) (ha : a.length = w) : B.take w = a := by
  rw [hB]; exact List.take_left' ha

theorem take_chunk_drop {B a rest : List Nat} {n w : Nat}
    (hB : B.drop n = a ++ rest) (ha : a.length = w) : (B.drop n).take w = a := by
  rw [hB]; exact List.take_left' ha

theorem decode_encode (r : RawHeader) (h : validRawB r = true) :
    decodeHeader (encodeHeader r) = Except.ok r := by
  have hv := h
  simp only [validRawB, Bool.and_eq_true, decide_eq_true_eq] at hv
  obtain ⟨⟨⟨⟨⟨⟨⟨⟨⟨hname, hnlen⟩, hlink⟩, hllen⟩, hmode⟩, huid⟩, hgid⟩, hsize⟩,
    hmtime⟩, htf⟩ := hv
  set cv : Nat := (hdrBody r).sum + 256 + (hdrTail r).sum with hcv
  have hBdef : encodeHeader r = hdrBody r ++ (chkField cv ++ hdrTail r) := by
    rw [hcv]
    simp only [encodeHeader, List.append_assoc]
  -- the drop chain through the body fields
  have e0 : (encodeHeader r).drop 0 = padField 100 r.name ++ (octField 7 r.mode ++
      (octField 7 r.uid ++ (octField 7 r.gid ++ (octField 11 r.size ++
      (octField 11 r.mtime ++ (chkField cv ++ hdrTail r)))))) := by
    rw [List.drop_zero, hBdef]
    unfold hdrBody
    simp only [List.append_assoc]
  have e100 := drop_chunk 100 100 e0 (padField_length 100 r.name) (by norm_num)
  have e108 := drop_chunk 108 8 e100 (octField_length 7 r.mode) (by norm_num)
  have e116 := drop_chunk 116 8 e108 (octField_length 7 r.uid) (by norm_num)
  have e124 := drop_chunk 124 8 e116 (octField_length 7 r.gid) (by norm_num)
  have e136 := drop_chunk 136 12 e124 (octField_length 11 r.size) (by norm_num)
  have e148 := drop_chunk 148 12 e136 (octField_length 11 r.mtime) (by norm_num)
  have e156 := drop_chunk 156 8 e148 (chkField_length cv) (by norm_num)
  -- the drop chain through the tail fields
  have e157 : (encodeHeader r).drop 157 = padField 100 r.linkname ++
      (ustarMagic ++ (zeros 64 ++ (octField 7 0 ++ (octField 7 0 ++ zeros 167)))) := by
    have h1 : (encodeHeader r).drop 156 = [r.typeflag] ++
        (padField 100 r.linkname ++ (ustarMagic ++ (zeros 64 ++
        (octField 7 0 ++ (octField 7 0 ++ zeros 167))))) := by
      rw [e156]
      simp only [hdrTail, List.append_assoc]
      rfl
    exact drop_chunk 157 1 h1 (by simp) (by norm_num)
  have e257 := drop_chunk 257 100 e157 (padField_length 100 r.linkname) (by norm_num)
  have e265 := drop_chunk 265 8 e257 ustarMagic_length (by norm_num)
  have e329 := drop_chunk 329 64 e265 (zeros_length 64) (by norm_num)
  have e337 := drop_chunk 337 8 e329 (octField_length 7 0) (by norm_num)
  have e345 : (encodeHeader r).drop 345 = zeros 167 := by
    have h1 : (encodeHeader r).drop 337 = octField 7 0 ++ (zeros 167 ++ []) := by
      rw [e337, List.append_nil]
    have := drop_chunk 345 8 h1 (octField_length 7 0) (by norm_num)
    rw [this, List.append_nil]
  -- field values
  have htake148 : (encodeHeader r).take 148 = hdrBody r :=
    take_chunk hBdef (hdrBody_length r)
  have htake100 : (encodeHeader r).take 100 = padField 100 r.name := by
    have h0 : encodeHeader r = padField 100 r.name ++ (octField 7 r.mode ++
        (octField 7 r.uid ++ (octField 7 r.gid ++ (octField 11 r.size ++
        (octField 11 r.mtime ++ (chkField cv ++ hdrTail r)))))) := by
      rw [← List.drop_zero (encodeHeader r), e0]
    exact take_chunk h0 (padField_length 100 r.name)
  have hnameval : trimNul ((encodeHeader r).take 100) = r.name := by
    rw [htake100]
    exact trimNul_padField 100 r.name hnlen (by norm_num) (bytesOk_ne_zero _ hname)
  have hpfxval : trimNul (((encodeHeader r).drop 345).take 155) = [] := by
    rw [e345]
    unfold zeros
    rw [List.take_replicate]
    have : trimNul (zeros (min 155 167)) = [] := trimNul_zeros _
    simpa [zeros] using this
  have hmodeval : parseOct (((encodeHeader r).drop 100).take 8) = r.mode := by
    rw [take_chunk_drop e100 (octField_length 7 r.mode)]
    exact parseOct_octField 7 r.mode hmode
  have huidval : parseOct (((encodeHeader r).drop 108).take 8) = r.uid := by
    rw [take_chunk_drop e108 (octField_length 7 r.uid)]
    exact parseOct_octField 7 r.uid huid
  have hgidval : parseOct (((encodeHeader r).drop 116).take 8) = r.gid := by
    rw [take_chunk_drop e116 (octField_length 7 r.gid)]
    exact parseOct_octField 7 r.gid hgid
  have hsizeval : parseOct (((encodeHeader r).drop 124).take 12) = r.size := by
    rw [take_chunk_drop e124 (octField_length 11 r.size)]
    exact parseOct_octField 11 r.size hsize
  have hmtimeval : parseOct (((encodeHeader r).drop 136).take 12) = r.mtime := by
    rw [take_chunk_drop e136 (octField_length 11 r.mtime)]
    exact parseOct_octField 11 r.mtime hmtime
  have htfval : ((encodeHeader r).drop 156).headD 0 = r.typeflag := by
    rw [e156]
    rfl
  have hlinkval : trimNul (((encodeHeader r).drop 157).take 100) = r.linkname := by
    rw [take_chunk_drop e157 (padField_length 100 r.linkname)]
    exact trimNul_padField 100 r.linkname hllen (by norm_num)
      (bytesOk_ne_zero _ hlink)
  have hmagicval : ((encodeHeader r).drop 257).take 8 = ustarMagic :=
    take_chunk_drop e257 ustarMagic_length
  -- the checksum
  have hchk8 : ((encodeHeader r).drop 148).take 8 = chkField cv :=
    take_chunk_drop e148 (chkField_length cv)
  have hsumval : chkSumOf (encodeHeader r) = cv := by
    unfold chkSumOf
    rw [htake148, e156, hcv]
    simp [List.sum_append, List.sum_replicate]
    omega
  have hcbound : cv < 8 ^ 6 := by
    have h1 := sum_le_of_bytes _ (mem_hdrBody_lt r hname)
    have h2 := sum_le_of_bytes _ (mem_hdrTail_lt r hlink htf)
    rw [hdrBody_length] at h1
    rw [hdrTail_length] at h2
    have h86 : (8 : Nat) ^ 6 = 262144 := by norm_num
    rw [hcv, h86]
    omega
  have hstored : parseOct (((encodeHeader r).drop 148).take 8) = chkSumOf (encodeHeader r) := by
    rw [hchk8, parseOct_chkField cv hcbound, hsumval]
  -- assemble
  unfold decodeHeader
  rw [if_pos (encodeHeader_length r), if_pos hstored, if_pos hmagicval]
  rw [hpfxval, hnameval, hmodeval, huidval, hgidval, hsizeval, hmtimeval,
    htfval, hlinkval]
  simp

theorem sum_set_add (l : List Nat) (i v : Nat) (h : i < l.length) :
    (l.set i v).sum + l.getD i 0 = l.sum + v := by
  obtain ⟨l₁, l₂, hdec, hlen, hset⟩ := List.exists_of_set h
  have hg : l.getD i 0 = l[i] := by
    simp [List.getD_eq_getElem?_getD, List.getElem?_eq_getElem h]
  rw [hset, hg]
  conv_rhs => rw [hdec]
  simp [List.sum_append]
  omega

theorem getD_take_eq (l : List Nat) (n i : Nat) (h : i < n) :
    (l.take n).getD i 0 = l.getD i 0 := by
  simp [List.getD_eq_getElem?_getD, List.getElem?_take_of_lt h]

theorem getD_drop_eq (l : List Nat) (n i : Nat) :
    (l.drop n).getD i 0 = l.getD (n + i) 0 := by
  simp [List.getD_eq_getElem?_getD, List.getElem?_drop]

theorem chkSumOf_split (B : List Nat) :
    chkSumOf B = (B.take 148).sum + 256 + (B.drop 156).sum := by
  unfold chkSumOf
  simp [List.sum_append, List.sum_replicate]
  omega

theorem decodeHeader_ok_length {B : List Nat} {r : RawHeader}
    (h : decodeHeader B = Except.ok r) : B.length = 512 := by
  by_cases h512 : B.length = 512
  · exact h512
  · simp [decodeHeader, h512] at h

theorem decodeHeader_ok_chk {B : List Nat} {r : RawHeader}
    (h : decodeHeader B = Except.ok r) :
    parseOct ((B.drop 148).take 8) = chkSumOf B := by
  by_cases hc : parseOct ((B.drop 148).take 8) = chkSumOf B
  · exact hc
  · simp [decodeHeader, decodeHeader_ok_length h, hc] at h

theorem decode_flip (B : List Nat) (r : RawHeader) (i v : Nat)
    (hok : decodeHeader B = Except.ok r)
    (hi : i < 148 ∨ (156 ≤ i ∧ i < 512))
    (hv : v < 256) (hne : v ≠ B.getD i 0) :
    decodeHeader (B.set i v) = Except.error TarErr.checksumError := by
  have hlen : B.length = 512 := decodeHeader_ok_length hok
  have hstored : parseOct ((B.drop 148).take 8) = chkSumOf B := decodeHeader_ok_chk hok
  have hlen' : (B.set i v).length = 512 := by simp [hlen]
  -- the stored checksum field is untouched by the flip
  have hfield : ((B.set i v).drop 148).take 8 = (B.drop 148).take 8 := by
    rcases hi with hlt | ⟨hge, hub⟩
    · rw [List.drop_set_of_lt _ _ (by omega : i < 148)]
    · rw [List.drop_set, if_neg (by omega), List.set_take]
      exact List.set_eq_of_length_le (by simp; omega)
  -- the spaced sum moves by exactly the byte difference
  have hsum : chkSumOf (B.set i v) + B.getD i 0 = chkSumOf B + v := by
    rcases hi with hlt | ⟨hge, hub⟩
    · have htk : (B.set i v).take 148 = (B.take 148).set i v := List.set_take
      have hdr : (B.set i v).drop 156 = B.drop 156 :=
        List.drop_set_of_lt _ _ (by omega : i < 156)
      have hs := sum_set_add (B.take 148) i v (by simp [hlen]; omega)
      rw [getD_take_eq _ _ _ hlt] at hs
      rw [chkSumOf_split, chkSumOf_split, htk, hdr]
      omega
    · have htk : (B.set i v).take 148 = B.take 148 :=
        List.take_set_of_lt _ _ (by omega : 148 < i)
      have hdr : (B.set i v).drop 156 = (B.drop 156).set (i - 156) v := by
        rw [List.drop_set, if_neg (by omega)]
      have hs := sum_set_add (B.drop 156) (i - 156) v (by simp [hlen]; omega)
      rw [getD_drop_eq] at hs
      have h156 : 156 + (i - 156) = i := by omega
      rw [h156] at hs
      rw [chkSumOf_split, chkSumOf_split, htk, hdr]
      omega
  have hneq : parseOct (((B.set i v).drop 148).take 8) ≠ chkSumOf (B.set i v) := by
    rw [hfield, hstored]
    intro hcontra
    have : v = B.getD i 0 := by omega
    exact hne this
  simp [decodeHeader, hlen', hneq]

theorem encodeHeader_sum_ge (r : RawHeader) : 32 ≤ (encodeHeader r).sum := by
  simp only [encodeHeader, chkField, List.sum_append, List.append_assoc,
    List.sum_cons, List.sum_nil]
  omega

theorem encodeHeader_ne_zeros (r : RawHeader) : encodeHeader r ≠ zeros 512 := by
  intro h
  have h1 : (encodeHeader r).sum = 0 := by
    rw [h]
    simp only [zeros, List.sum_replicate, smul_eq_mul, Nat.mul_zero]
  have h2 := encodeHeader_sum_ge r
  omega

@[simp] theorem padData_length (d : List Nat) :
    (padData d).length = d.length + padLen d.length := by
  simp [padData]

theorem bytesOk_take (s : List Nat) (n : Nat) (h : bytesOk s = true) :
    bytesOk (s.take n) = true := by
  rw [bytesOk, List.all_eq_true]
  intro b hb
  exact List.all_eq_true.mp h b (List.take_subset _ _ hb)

theorem validRaw_longHdr (tf : Nat) (s : List Nat) (htf : tf < 256)
    (hs : s.length < 8 ^ 11) : validRawB (longHdr tf s) = true := by
  have hs2 : s.length < 8589934592 := by
    have h8 : (8 : Nat) ^ 11 = 8589934592 := by norm_num
    omega
  simp [validRawB, longHdr, hs2, htf, bytesOk, longLinkName]

theorem validEntry_parts (e : EntryModel) (h : validEntryB e = true) :
    bytesOk e.name = true ∧ e.name.length < 8 ^ 11 ∧
    bytesOk (linkOf e.etype) = true ∧ (linkOf e.etype).length < 8 ^ 11 ∧
    e.mode < 8 ^ 7 ∧ e.uid < 8 ^ 7 ∧ e.gid < 8 ^ 7 ∧ e.mtime < 8 ^ 11 ∧
    contentOk e.data = true ∧ e.data.length < 8 ^ 11 := by
  simp only [validEntryB, Bool.and_eq_true, decide_eq_true_eq] at h
  obtain ⟨⟨⟨⟨⟨⟨⟨⟨⟨⟨h1, h2⟩, h3⟩, h4⟩, h5⟩, h6⟩, h7⟩, h8⟩, h9⟩, h10⟩, _⟩ := h
  exact ⟨h1, h2, h3, h4, h5, h6, h7, h8, h9, h10⟩

theorem validEntry_other (e : EntryModel) (h : validEntryB e = true) (c : Nat)
    (hc : e.etype = EntryType.other c) :
    0 < c ∧ c < 256 ∧ c ≠ 48 ∧ c ≠ 49 ∧ c ≠ 50 ∧ c ≠ 53 ∧ c ≠ 75 ∧ c ≠ 76 ∧
      e.data = [] := by
  simp only [validEntryB, Bool.and_eq_true] at h
  obtain ⟨_, hm⟩ := h
  rw [hc] at hm
  simp only [Bool.and_eq_true, decide_eq_true_eq, List.isEmpty_iff] at hm
  obtain ⟨⟨⟨⟨⟨⟨⟨⟨h0, h256⟩, h48⟩, h49⟩, h50⟩, h53⟩, h75⟩, h76⟩, hdata⟩ := hm
  exact ⟨h0, h256, h48, h49, h50, h53, h75, h76, hdata⟩

theorem validEntry_data_empty (e : EntryModel) (h : validEntryB e = true)
    (hne : e.etype ≠ EntryType.regular) : e.data = [] := by
  simp only [validEntryB, Bool.and_eq_true] at h
  obtain ⟨_, hm⟩ := h
  cases he : e.etype with
  | regular => exact absurd he hne
  | other c =>
    rw [he] at hm
    simp only [Bool.and_eq_true, List.isEmpty_iff] at hm
    exact hm.2
  | directory =>
    rw [he] at hm
    simpa [List.isEmpty_iff] using hm
  | symlink t =>
    rw [he] at hm
    simpa [List.isEmpty_iff] using hm
  | hardlink t =>
    rw [he] at hm
    simpa [List.isEmpty_iff] using hm

theorem tfOf_lt (e : EntryModel) (h : validEntryB e = true) : tfOf e.etype < 256 := by
  cases he : e.etype with
  | regular => simp [tfOf]
  | directory => simp [tfOf]
  | symlink t => simp [tfOf]
  | hardlink t => simp [tfOf]
  | other c =>
    obtain ⟨_, hc, _⟩ := validEntry_other e h c he
    simpa [tfOf] using hc

theorem validRaw_hdrOf (e : EntryModel) (h : validEntryB e = true) :
    validRawB (hdrOf e) = true := by
  obtain ⟨h1, h2, h3, h4, h5, h6, h7, h8, h9, h10⟩ := validEntry_parts e h
  have htf := tfOf_lt e h
  simp only [validRawB, hdrOf, Bool.and_eq_true, decide_eq_true_eq]
  refine ⟨⟨⟨⟨⟨⟨⟨⟨⟨?_, ?_⟩, ?_⟩, ?_⟩, h5⟩, h6⟩, h7⟩, h10⟩, h8⟩, htf⟩
  · exact bytesOk_take _ _ h1
  · simp [List.length_take]
  · exact bytesOk_take _ _ h3
  · simp [List.length_take]

theorem typeOf_tfOf (e : EntryModel) (h : validEntryB e = true) :
    typeOf (tfOf e.etype) (linkOf e.etype) = e.etype := by
  cases he : e.etype with
  | regular => simp [tfOf, typeOf]
  | directory => simp [tfOf, typeOf]
  | symlink t => simp [tfOf, typeOf, linkOf]
  | hardlink t => simp [tfOf, typeOf, linkOf]
  | other c =>
    obtain ⟨hp, _, h48, h49, h50, h53, _, _, _⟩ := validEntry_other e h c he
    simp [tfOf, typeOf, h48, h49, h50, h53]
    omega

theorem tfOf_ne76 (e : EntryModel) (h : validEntryB e = true) :
    ¬ (tfOf e.etype = 76) := by
  cases he : e.etype with
  | other c =>
    obtain ⟨_, _, _, _, _, _, _, h76, _⟩ := validEntry_other e h c he
    simpa [tfOf] using h76
  | regular => simp [tfOf]
  | directory => simp [tfOf]
  | symlink t => simp [tfOf]
  | hardlink t => simp [tfOf]

theorem tfOf_ne75 (e : EntryModel) (h : validEntryB e = true) :
    ¬ (tfOf e.etype = 75) := by
  cases he : e.etype with
  | other c =>
    obtain ⟨_, _, _, _, _, _, h75, _, _⟩ := validEntry_other e h c he
    simpa [tfOf] using h75
  | regular => simp [tfOf]
  | directory => simp [tfOf]
  | symlink t => simp [tfOf]
  | hardlink t => simp [tfOf]

theorem readLoop_nil (pn pl : Option (List Nat)) (fuel : Nat) :
    readLoop (fuel + 1) pn pl [] = Except.error TarErr.truncatedArchive := rfl

theorem take_zeros (n m : Nat) (h : n ≤ m) : (zeros m).take n = zeros n := by
  unfold zeros
  rw [List.take_replicate]
  congr 1
  omega

theorem drop_zeros (n m : Nat) : (zeros m).drop n = zeros (m - n) := by
  unfold zeros
  rw [List.drop_replicate]

theorem readLoop_term (pn pl : Option (List Nat)) (fuel : Nat) :
    readLoop (fuel + 1) pn pl (zeros 1024) = Except.ok [] := by
  have h1 : ¬ ((zeros 1024).length < 512) := by simp
  have h2 : (zeros 1024).take 512 = zeros 512 := take_zeros 512 1024 (by omega)
  have h3 : (zeros 1024).drop 512 = zeros 512 := by
    rw [drop_zeros]
  have h4 : ¬ ((zeros 512).length < 512) := by simp
  have h5 : (zeros 512).take 512 = zeros 512 := take_zeros 512 512 (by omega)
  simp only [readLoop]
  rw [if_neg h1, if_pos h2, h3, if_neg h4, if_pos h5]

theorem readLoop_auxL (s : List Nat) (hs : s.length < 8 ^ 11)
    (pn pl : Option (List Nat)) (rest : List Nat) (fuel : Nat) :
    readLoop (fuel + 1) pn pl (auxBlock 76 s ++ rest) =
      readLoop fuel (some s) pl rest := by
  have hb : auxBlock 76 s ++ rest =
      encodeHeader (longHdr 76 s) ++ (padData s ++ rest) := by
    simp [auxBlock, List.append_assoc]
  have hlen : ¬ ((encodeHeader (longHdr 76 s) ++ (padData s ++ rest)).length < 512) := by
    simp [encodeHeader_length]
  have htake : (encodeHeader (longHdr 76 s) ++ (padData s ++ rest)).take 512 =
      encodeHeader (longHdr 76 s) := List.take_left' (encodeHeader_length _)
  have hdrop : (encodeHeader (longHdr 76 s) ++ (padData s ++ rest)).drop 512 =
      padData s ++ rest := List.drop_left' (encodeHeader_length _)
  have hnz : ¬ (encodeHeader (longHdr 76 s) = zeros 512) := encodeHeader_ne_zeros _
  have hdec : decodeHeader (encodeHeader (longHdr 76 s)) = Except.ok (longHdr 76 s) :=
    decode_encode _ (validRaw_longHdr 76 s (by omega) hs)
  have hsz : ¬ ((padData s ++ rest).length < s.length + padLen s.length) := by
    simp
  have hpay : (padData s ++ rest).take s.length = s := by
    have hx : padData s ++ rest = s ++ (zeros (padLen s.length) ++ rest) := by
      simp [padData, List.append_assoc]
    rw [hx]
    exact List.take_left' rfl
  have hskip : (padData s ++ rest).drop (s.length + padLen s.length) = rest :=
    List.drop_left' (by simp)
  rw [hb]
  simp only [readLoop]
  rw [htake, hdrop, if_neg hlen, if_neg hnz, hdec]
  simp only [afterHdr, longHdr]
  rw [if_neg hsz]
  simp [hpay, hskip]

theorem readLoop_auxK (s : List Nat) (hs : s.length < 8 ^ 11)
    (pn pl : Option (List Nat)) (rest : List Nat) (fuel : Nat) :
    readLoop (fuel + 1) pn pl (auxBlock 75 s ++ rest) =
      readLoop fuel pn (some s) rest := by
  have hb : auxBlock 75 s ++ rest =
      encodeHeader (longHdr 75 s) ++ (padData s ++ rest) := by
    simp [auxBlock, List.append_assoc]
  have hlen : ¬ ((encodeHeader (longHdr 75 s) ++ (padData s ++ rest)).length < 512) := by
    simp [encodeHeader_length]
  have htake : (encodeHeader (longHdr 75 s) ++ (padData s ++ rest)).take 512 =
      encodeHeader (longHdr 75 s) := List.take_left' (encodeHeader_length _)
  have hdrop : (encodeHeader (longHdr 75 s) ++ (padData s ++ rest)).drop 512 =
      padData s ++ rest := List.drop_left' (encodeHeader_length _)
  have hnz : ¬ (encodeHeader (longHdr 75 s) = zeros 512) := encodeHeader_ne_zeros _
  have hdec : decodeHeader (encodeHeader (longHdr 75 s)) = Except.ok (longHdr 75 s) :=
    decode_encode _ (validRaw_longHdr 75 s (by omega) hs)
  have hsz : ¬ ((padData s ++ rest).length < s.length + padLen s.length) := by
    simp
  have hpay : (padData s ++ rest).take s.length = s := by
    have hx : padData s ++ rest = s ++ (zeros (padLen s.length) ++ rest) := by
      simp [padData, List.append_assoc]
    rw [hx]
    exact List.take_left' rfl
  have hskip : (padData s ++ rest).drop (s.length + padLen s.length) = rest :=
    List.drop_left' (by simp)
  rw [hb]
  simp only [readLoop]
  rw [htake, hdrop, if_neg hlen, if_neg hnz, hdec]
  simp only [afterHdr, longHdr]
  rw [if_neg hsz]
  simp [hpay, hskip]

theorem readLoop_hdr (e : EntryModel) (h : validEntryB e = true)
    (pn pl : Option (List Nat)) (rest : List Nat) (fuel : Nat)
    (hpn : pn.getD (e.name.take 100) = e.name)
    (hpl : pl.getD ((linkOf e.etype).take 100) = linkOf e.etype) :
    readLoop (fuel + 1) pn pl (encodeHeader (hdrOf e) ++ (padData e.data ++ rest)) =
      Except.map (fun es => e :: es) (readLoop fuel none none rest) := by
  have hlen : ¬ ((encodeHeader (hdrOf e) ++ (padData e.data ++ rest)).length < 512) := by
    simp [encodeHeader_length]
  have htake : (encodeHeader (hdrOf e) ++ (padData e.data ++ rest)).take 512 =
      encodeHeader (hdrOf e) := List.take_left' (encodeHeader_length _)
  have hdrop : (encodeHeader (hdrOf e) ++ (padData e.data ++ rest)).drop 512 =
      padData e.data ++ rest := List.drop_left' (encodeHeader_length _)
  have hnz : ¬ (encodeHeader (hdrOf e) = zeros 512) := encodeHeader_ne_zeros _
  have hdec : decodeHeader (encodeHeader (hdrOf e)) = Except.ok (hdrOf e) :=
    decode_encode _ (validRaw_hdrOf e h)
  have hsz : ¬ ((padData e.data ++ rest).length < e.data.length + padLen e.data.length) := by
    simp
  have hpay : (padData e.data ++ rest).take e.data.length = e.data := by
    have hx : padData e.data ++ rest = e.data ++ (zeros (padLen e.data.length) ++ rest) := by
      simp [padData, List.append_assoc]
    rw [hx]
    exact List.take_left' rfl
  have hskip : (padData e.data ++ rest).drop (e.data.length + padLen e.data.length) = rest :=
    List.drop_left' (by simp)
  have h76 := tfOf_ne76 e h
  have h75 := tfOf_ne75 e h
  have hty := typeOf_tfOf e h
  simp only [readLoop]
  rw [htake, hdrop, if_neg hlen, if_neg hnz, hdec]
  simp only [afterHdr, hdrOf]
  rw [if_neg hsz, if_neg h76, if_neg h75, hpay, hskip, hpn, hpl, hty]

theorem readLoop_entry (e : EntryModel) (h : validEntryB e = true)
    (rest : List Nat) (fuel : Nat) :
    readLoop (fuel + entryCost e) none none (encodeEntry e ++ rest) =
      Except.map (fun es => e :: es) (readLoop fuel none none rest) := by
  obtain ⟨h1, h2, h3, h4, _, _, _, _, _, _⟩ := validEntry_parts e h
  have hb : encodeEntry e ++ rest =
      (if 100 < e.name.length then auxBlock 76 e.name else []) ++
      ((if 100 < (linkOf e.etype).length then auxBlock 75 (linkOf e.etype) else []) ++
      (encodeHeader (hdrOf e) ++ (padData e.data ++ rest))) := by
    simp [encodeEntry, List.append_assoc]
  rw [hb]
  by_cases hn : 100 < e.name.length <;> by_cases hl : 100 < (linkOf e.etype).length
  · rw [if_pos hn, if_pos hl]
    have hcost : fuel + entryCost e = ((fuel + 1) + 1) + 1 := by
      simp only [entryCost, if_pos hn, if_pos hl]
      try omega
    rw [hcost, readLoop_auxL e.name h2, readLoop_auxK (linkOf e.etype) h4]
    exact readLoop_hdr e h _ _ rest fuel rfl rfl
  · rw [if_pos hn, if_neg hl]
    have hcost : fuel + entryCost e = (fuel + 1) + 1 := by
      simp only [entryCost, if_pos hn, if_neg hl]
      try omega
    rw [hcost, readLoop_auxL e.name h2, List.nil_append]
    refine readLoop_hdr e h _ _ rest fuel rfl ?_
    simp only [Option.getD]
    exact List.take_of_length_le (by omega)
  · rw [if_neg hn, if_pos hl, List.nil_append]
    have hcost : fuel + entryCost e = (fuel + 1) + 1 := by
      simp only [entryCost, if_neg hn, if_pos hl]
      try omega
    rw [hcost, readLoop_auxK (linkOf e.etype) h4]
    refine readLoop_hdr e h _ _ rest fuel ?_ rfl
    simp only [Option.getD]
    exact List.take_of_length_le (by omega)
  · rw [if_neg hn, if_neg hl, List.nil_append, List.nil_append]
    have hcost : fuel + entryCost e = fuel + 1 := by
      simp only [entryCost, if_neg hn, if_neg hl]
    rw [hcost]
    refine readLoop_hdr e h _ _ rest fuel ?_ ?_
    · simp only [Option.getD]
      exact List.take_of_length_le (by omega)
    · simp only [Option.getD]
      exact List.take_of_length_le (by omega)

theorem read_writeBody (es : List EntryModel) (h : validEntriesB es = true)
    (tail : List Nat) (k : Nat) :
    readLoop (listCost es + k) none none (writeBody es ++ tail) =
      Except.map (fun l => es ++ l) (readLoop k none none tail) := by
  induction es with
  | nil =>
    simp only [writeBody, listCost, List.nil_append, Nat.zero_add]
    cases hx : readLoop k none none tail <;> simp [Except.map]
  | cons e es ih =>
    have he : validEntryB e = true := by
      simp only [validEntriesB, List.all_cons, Bool.and_eq_true] at h
      exact h.1
    have hes : validEntriesB es = true := by
      simp only [validEntriesB, List.all_cons, Bool.and_eq_true] at h
      exact h.2
    have hb : writeBody (e :: es) ++ tail = encodeEntry e ++ (writeBody es ++ tail) := by
      simp [writeBody, List.append_assoc]
    have hcost : listCost (e :: es) + k = (listCost es + k) + entryCost e := by
      simp [listCost]
      omega
    rw [hb, hcost, readLoop_entry e he _ _, ih hes]
    cases hx : readLoop k none none tail <;> simp [Except.map]

theorem entryCost_le (e : EntryModel) : entryCost e ≤ (encodeEntry e).length := by
  have h1 : 512 ≤ (encodeHeader (hdrOf e)).length := by
    rw [encodeHeader_length]
  unfold entryCost encodeEntry
  by_cases hn : 100 < e.name.length <;> by_cases hl : 100 < (linkOf e.etype).length <;>
    simp [hn, hl, List.length_append] <;> omega

theorem listCost_le (es : List EntryModel) : listCost es ≤ (writeBody es).length := by
  induction es with
  | nil => simp [listCost, writeBody]
  | cons e es ih =>
    have := entryCost_le e
    simp only [listCost, writeBody, List.length_append]
    omega

/-- The writer/reader round-trip at the whole-archive level. -/
theorem read_write (es : List EntryModel) (h : validEntriesB es = true) :
    readArchive (writeArchive es) = Except.ok es := by
  unfold readArchive writeArchive
  have hle := listCost_le es
  have hlen : (writeBody es ++ zeros 1024).length =
      (writeBody es).length + 1024 := by
    simp
  rw [hlen]
  have hk : (writeBody es).length + 1024 + 1 =
      listCost es + ((writeBody es).length + 1025 - listCost es) := by
    omega
  rw [hk, read_writeBody es h _ _]
  obtain ⟨k, hk2⟩ : ∃ k, (writeBody es).length + 1025 - listCost es = k + 1 :=
    ⟨(writeBody es).length + 1024 - listCost es, by omega⟩
  rw [hk2, readLoop_term]
  simp [Except.map]

/-- An archive body missing its terminator blocks reads as truncated. -/
theorem read_writeBody_truncated (es : List EntryModel)
    (h : validEntriesB es = true) :
    readArchive (writeBody es) = Except.error TarErr.truncatedArchive := by
  unfold readArchive
  have hle := listCost_le es
  obtain ⟨k, hk2⟩ : ∃ k, (writeBody es).length + 1 - listCost es = k + 1 :=
    ⟨(writeBody es).length - listCost es, by omega⟩
  have hrw := read_writeBody es h [] ((writeBody es).length + 1 - listCost es)
  rw [List.append_nil, hk2, readLoop_nil] at hrw
  have hk : (writeBody es).length + 1 =
      listCost es + ((writeBody es).length + 1 - listCost es) := by
    omega
  rw [hk, hk2, hrw]
  simp [Except.map]

theorem splitPath_append (c rest : List Nat) (hc : ∀ b ∈ c, b ≠ 47) :
    splitPath (c ++ 47 :: rest) = c :: splitPath rest := by
  induction c with
  | nil => simp [splitPath]
  | cons b c ih =>
    have hb : b ≠ 47 := hc b (by simp)
    have ih2 := ih (fun x hx => hc x (by simp [hx]))
    rw [List.cons_append]
    have step : splitPath (b :: (c ++ 47 :: rest)) =
        match splitPath (c ++ 47 :: rest) with
        | cc :: cs => (b :: cc) :: cs
        | [] => [[b]] := by
      simp only [splitPath, if_neg hb]
    rw [step, ih2]

theorem splitPath_whole (c : List Nat) (hc : ∀ b ∈ c, b ≠ 47) (hne : c ≠ []) :
    splitPath c = [c] := by
  induction c with
  | nil => exact absurd rfl hne
  | cons b c ih =>
    have hb : b ≠ 47 := hc b (by simp)
    by_cases hcnil : c = []
    · subst hcnil
      simp [splitPath, hb]
    · have ih2 : splitPath c = [c] := ih (fun x hx => hc x (by simp [hx])) hcnil
      have step : splitPath (b :: c) =
          match splitPath c with
          | cc :: cs => (b :: cc) :: cs
          | [] => [[b]] := by
        simp only [splitPath, if_neg hb]
      rw [step, ih2]

theorem split_join (p : FsPath) (hne : p ≠ [])
    (hp : ∀ c ∈ p, c ≠ [] ∧ ∀ b ∈ c, b ≠ 47) :
    splitPath (joinPath p) = p := by
  induction p with
  | nil => exact absurd rfl hne
  | cons c cs ih =>
    have hc := hp c (by simp)
    cases cs with
    | nil =>
      show splitPath (joinPath [c]) = [c]
      exact splitPath_whole c hc.2 hc.1
    | cons d ds =>
      have hjoin : joinPath (c :: d :: ds) = c ++ 47 :: joinPath (d :: ds) := rfl
      rw [hjoin, splitPath_append c _ hc.2,
        ih (by simp) (fun x hx => hp x (by simp [hx]))]

theorem mem_joinPath (p : FsPath) (b : Nat) (hb : b ∈ joinPath p) :
    b = 47 ∨ ∃ c ∈ p, b ∈ c := by
  induction p with
  | nil => simp [joinPath] at hb
  | cons c cs ih =>
    cases hcs : cs with
    | nil =>
      rw [hcs] at hb
      exact Or.inr ⟨c, by simp, hb⟩
    | cons d ds =>
      rw [hcs] at hb
      have : joinPath (c :: d :: ds) = c ++ 47 :: joinPath (d :: ds) := rfl
      rw [this] at hb
      rcases List.mem_append.mp hb with h1 | h1
      · exact Or.inr ⟨c, by simp, h1⟩
      · rcases List.mem_cons.mp h1 with h2 | h2
        · exact Or.inl h2
        · rw [hcs] at ih
          rcases ih h2 with h3 | ⟨cc, hcc1, hcc2⟩
          · exact Or.inl h3
          · exact Or.inr ⟨cc, by simp [hcc1], hcc2⟩

theorem joinPath_head (x : Nat) (c2 : List Nat) (cs : FsPath) :
    (joinPath ((x :: c2) :: cs)).head? = some x := by
  cases cs with
  | nil => rfl
  | cons d ds => rfl

theorem joinPath_ne_nil (c : List Nat) (cs : FsPath) (hc : c ≠ []) :
    joinPath (c :: cs) ≠ [] := by
  cases c with
  | nil => exact absurd rfl hc
  | cons x c2 =>
    cases cs with
    | nil => simp [joinPath]
    | cons d ds =>
      have : joinPath ((x :: c2) :: d :: ds) = (x :: c2) ++ 47 :: joinPath (d :: ds) := rfl
      simp [this]

theorem pathOk_parts (p : FsPath) (h : pathOk p = true) :
    p ≠ [] ∧ (∀ c ∈ p, c ≠ [] ∧ (∀ b ∈ c, 0 < b ∧ b < 256 ∧ b ≠ 47) ∧
      c ≠ [46, 46]) ∧ (joinPath p).length < 8 ^ 11 := by
  simp only [pathOk, Bool.and_eq_true, decide_eq_true_eq, List.all_eq_true] at h
  obtain ⟨⟨hne, hall⟩, hlen⟩ := h
  refine ⟨hne, ?_, hlen⟩
  intro c hc
  have := hall c hc
  simp only [compOk, Bool.and_eq_true, decide_eq_true_eq, List.all_eq_true] at this
  obtain ⟨⟨hcne, hbytes⟩, hdots⟩ := this
  refine ⟨hcne, ?_, hdots⟩
  intro b hb
  have := hbytes b hb
  simp only [Bool.and_eq_true, decide_eq_true_eq] at this
  exact ⟨this.1.1, this.1.2, this.2⟩

theorem splitPath_joinPath_of_pathOk (p : FsPath) (h : pathOk p = true) :
    splitPath (joinPath p) = p := by
  obtain ⟨hne, hcomp, _⟩ := pathOk_parts p h
  exact split_join p hne (fun c hc => ⟨(hcomp c hc).1, fun b hb => ((hcomp c hc).2.1 b hb).2.2⟩)

theorem safeName_joinPath (p : FsPath) (h : pathOk p = true) :
    safeName (joinPath p) = true := by
  obtain ⟨hne, hcomp, _⟩ := pathOk_parts p h
  obtain ⟨c, cs, rfl⟩ : ∃ c cs, p = c :: cs := by
    cases p with
    | nil => exact absurd rfl hne
    | cons c cs => exact ⟨c, cs, rfl⟩
  have hc := hcomp c (by simp)
  obtain ⟨x, c2, rfl⟩ : ∃ x c2, c = x :: c2 := by
    cases c with
    | nil => exact absurd rfl hc.1
    | cons x c2 => exact ⟨x, c2, rfl⟩
  simp only [safeName, Bool.and_eq_true, decide_eq_true_eq]
  refine ⟨⟨joinPath_ne_nil _ cs (by simp), ?_⟩, ?_⟩
  · rw [joinPath_head]
    intro hcontra
    have hx47 : x = 47 := by simpa using hcontra
    have := (hc.2.1 x (by simp)).2.2
    exact this hx47
  · rw [split_join ((x :: c2) :: cs) (by simp)
      (fun d hd => ⟨(hcomp d hd).1, fun b hb => ((hcomp d hd).2.1 b hb).2.2⟩)]
    rw [List.all_eq_true]
    intro d hd
    have := hcomp d hd
    simp only [Bool.and_eq_true, decide_eq_true_eq]
    exact ⟨this.1, this.2.2⟩

theorem listLtB_irrefl (s : List Nat) : listLtB s s = false := by
  induction s with
  | nil => rfl
  | cons a s ih => simp [listLtB, ih]

theorem pathLtB_irrefl (p : FsPath) : pathLtB p p = false := by
  induction p with
  | nil => rfl
  | cons c cs ih => simp [pathLtB, ih, listLtB_irrefl]

theorem pathLtB_ne (q p : FsPath) (h : pathLtB q p = true) : q ≠ p := by
  intro hqp
  rw [hqp] at h
  rw [pathLtB_irrefl] at h
  exact Bool.noConfusion h

theorem walkEntries_all (fs : Fs) :
    walkEntries (fun _ => true) fs =
      Except.ok (fs.map (fun pr => entryOf pr.1 pr.2)) := by
  induction fs with
  | nil => rfl
  | cons pr rest ih =>
    obtain ⟨p, n⟩ := pr
    simp [walkEntries, ih]

theorem walkEntries_unreadable (readable : FsPath → Bool) (fs : Fs)
    (h : ∃ pr ∈ fs, readable pr.1 = false) :
    ∃ q, readable q = false ∧
      walkEntries readable fs = Except.error (TarErr.accessError q) := by
  induction fs with
  | nil =>
    obtain ⟨pr, hpr, _⟩ := h
    exact absurd hpr (List.not_mem_nil pr)
  | cons pr rest ih =>
    revert h
    obtain ⟨p, n⟩ := pr
    intro h
    by_cases hr : readable p = true
    · obtain ⟨pr2, hpr2, hpr2f⟩ := h
      rcases List.mem_cons.mp hpr2 with rfl | hmem
      · rw [hr] at hpr2f
        exact Bool.noConfusion hpr2f
      · obtain ⟨q, hq1, hq2⟩ := ih ⟨pr2, hmem, hpr2f⟩
        refine ⟨q, hq1, ?_⟩
        simp only [walkEntries, if_pos hr, hq2]
    · have hrf : readable p = false := by
        cases hx : readable p
        · rfl
        · exact absurd hx hr
      refine ⟨p, hrf, ?_⟩
      simp only [walkEntries, if_neg hr]

theorem validEntry_entryOf (p : FsPath) (n : Node)
    (hp : pathOk p = true) (hn : nodeOk n = true) :
    validEntryB (entryOf p n) = true := by
  obtain ⟨hne, hcomp, hlen⟩ := pathOk_parts p hp
  have hbytes : bytesOk (joinPath p) = true := by
    rw [bytesOk, List.all_eq_true]
    intro b hb
    rcases mem_joinPath p b hb with rfl | ⟨c, hc1, hc2⟩
    · simp
    · have := (hcomp c hc1).2.1 b hc2
      simp only [Bool.and_eq_true, decide_eq_true_eq]
      omega
  have h11 : (8 : Nat) ^ 11 = 8589934592 := by norm_num
  have h7 : (8 : Nat) ^ 7 = 2097152 := by norm_num
  have hbnil : bytesOk [] = true := rfl
  have hlen2 : (joinPath p).length < 8589934592 := by rw [← h11]; exact hlen
  cases n with
  | file content mode mtime =>
    simp only [nodeOk, Bool.and_eq_true, decide_eq_true_eq] at hn
    obtain ⟨⟨⟨hcontent, hclen⟩, hmode⟩, hmtime⟩ := hn
    rw [h11] at hclen hmtime
    rw [h7] at hmode
    simp [validEntryB, entryOf, linkOf, hbytes, hbnil, hcontent, hclen, hmode,
      hmtime, hlen2]
  | dir mode =>
    simp only [nodeOk, decide_eq_true_eq] at hn
    rw [h7] at hn
    simp [validEntryB, entryOf, linkOf, contentOk, hbytes, hbnil, hn, hlen2]
  | symlink target =>
    simp only [nodeOk, Bool.and_eq_true, decide_eq_true_eq] at hn
    obtain ⟨htb, htl⟩ := hn
    rw [h11] at htl
    simp [validEntryB, entryOf, linkOf, contentOk, hbytes, htb, htl, hlen2]

theorem validEntries_map (fs : Fs)
    (h : fs.all (fun pr => pathOk pr.1 && nodeOk pr.2) = true) :
    validEntriesB (fs.map (fun pr => entryOf pr.1 pr.2)) = true := by
  rw [validEntriesB, List.all_eq_true]
  intro e he
  rw [List.mem_map] at he
  obtain ⟨pr, hpr, rfl⟩ := he
  have := List.all_eq_true.mp h pr hpr
  simp only [Bool.and_eq_true] at this
  exact validEntry_entryOf pr.1 pr.2 this.1 this.2

theorem lookupStore_none (p : FsPath) (st : Fs)
    (h : ∀ pr ∈ st, pathLtB pr.1 p = true) : lookupStore p st = none := by
  induction st with
  | nil => rfl
  | cons qr rest ih =>
    obtain ⟨q, m⟩ := qr
    have hq : pathLtB q p = true := h (q, m) (by simp)
    simp only [lookupStore, if_neg (pathLtB_ne q p hq)]
    exact ih (fun pr hpr => h pr (by simp [hpr]))

theorem storeInsert_append (p : FsPath) (n : Node) (st : Fs)
    (h : ∀ pr ∈ st, pathLtB pr.1 p = true) :
    storeInsert p n st = st ++ [(p, n)] := by
  induction st with
  | nil => rfl
  | cons qr rest ih =>
    obtain ⟨q, m⟩ := qr
    have hq : pathLtB q p = true := h (q, m) (by simp)
    simp only [storeInsert, if_neg (pathLtB_ne q p hq), if_pos hq, List.cons_append]
    rw [ih (fun pr hpr => h pr (by simp [hpr]))]

theorem extractLoop_app (fs : Fs) (st : Fs)
    (hord : ∀ pr ∈ st, ∀ pr2 ∈ fs, pathLtB pr.1 pr2.1 = true)
    (hpair : pairB fs = true)
    (hvalid : fs.all (fun pr => pathOk pr.1 && nodeOk pr.2) = true) :
    extractLoop false st (fs.map (fun pr => entryOf pr.1 pr.2)) =
      Except.ok (st ++ fs) := by
  induction fs generalizing st with
  | nil => simp [extractLoop]
  | cons pr rest ih =>
    obtain ⟨p, n⟩ := pr
    have hv : pathOk p = true ∧ nodeOk n = true := by
      have := List.all_eq_true.mp hvalid (p, n) (by simp)
      simpa using this
    have hsafe : safeName (joinPath p) = true := safeName_joinPath p hv.1
    have hsplit : splitPath (joinPath p) = p := splitPath_joinPath_of_pathOk p hv.1
    have hltst : ∀ pr2 ∈ st, pathLtB pr2.1 p = true :=
      fun pr2 hpr2 => hord pr2 hpr2 (p, n) (by simp)
    have hlook : lookupStore p st = none := lookupStore_none p st hltst
    have hins : storeInsert p n st = st ++ [(p, n)] := storeInsert_append p n st hltst
    have hpairrest : pairB rest = true := by
      simp only [pairB, Bool.and_eq_true] at hpair
      exact hpair.2
    have hheadlt : ∀ pr2 ∈ rest, pathLtB p pr2.1 = true := by
      intro pr2 hpr2
      simp only [pairB, Bool.and_eq_true, List.all_eq_true] at hpair
      exact hpair.1 pr2 hpr2
    have hstep : extractEntry false st (entryOf p n) = Except.ok (st ++ [(p, n)]) := by
      cases n with
      | file content mode mtime =>
        simp only [entryOf, extractEntry, hsafe, Bool.or_true, Bool.true_or,
          if_pos, hsplit, hlook]
        rw [hins]
      | dir mode =>
        simp only [entryOf, extractEntry, hsafe, Bool.or_true, Bool.true_or,
          if_pos, hsplit, hlook]
        rw [hins]
      | symlink target =>
        simp only [entryOf, extractEntry, hsafe, Bool.or_true, Bool.true_or,
          if_pos, hsplit]
        rw [hins]
    have hord2 : ∀ pr2 ∈ st ++ [(p, n)], ∀ pr3 ∈ rest, pathLtB pr2.1 pr3.1 = true := by
      intro pr2 hpr2 pr3 hpr3
      rcases List.mem_append.mp hpr2 with hmem | hmem
      · exact hord pr2 hmem pr3 (by simp [hpr3])
      · rcases List.mem_singleton.mp hmem with rfl
        exact hheadlt pr3 hpr3
    have hvalidrest : rest.all (fun pr => pathOk pr.1 && nodeOk pr.2) = true := by
      rw [List.all_eq_true]
      intro pr3 hpr3
      exact List.all_eq_true.mp hvalid pr3 (by simp [hpr3])
    simp only [List.map_cons, extractLoop, hstep]
    rw [ih (st ++ [(p, n)]) hord2 hpairrest hvalidrest]
    simp

theorem extract_walk (fs : Fs) (h : wellFormedFs fs = true) :
    extractEntries false (fs.map (fun pr => entryOf pr.1 pr.2)) = Except.ok fs := by
  simp only [wellFormedFs, Bool.and_eq_true] at h
  have := extractLoop_app fs [] (by intro pr hpr; simp at hpr) h.1 h.2
  simpa [extractEntries] using this

theorem roundTrip_ok (fs : Fs) (h : wellFormedFs fs = true) :
    roundTrip fs = Except.ok fs := by
  have hval : validEntriesB (fs.map (fun pr => entryOf pr.1 pr.2)) = true := by
    refine validEntries_map fs ?_
    simp only [wellFormedFs, Bool.and_eq_true] at h
    exact h.2
  unfold roundTrip
  rw [walkEntries_all fs]
  simp only []
  rw [read_write _ hval]
  simp only []
  exact extract_walk fs h

theorem extractEntry_rejected (st : Fs) (e : EntryModel)
    (h : safeName e.name = false) :
    extractEntry false st e = Except.error (TarErr.unsafePathError e.name) := by
  simp [extractEntry, h]

theorem extractLoop_rejected (es : List EntryModel) (st0 : Fs)
    (h : ∃ e ∈ es, safeName e.name = false) :
    isOkB (extractLoop false st0 es) = false := by
  induction es generalizing st0 with
  | nil =>
    obtain ⟨e, he, _⟩ := h
    exact absurd he (List.not_mem_nil e)
  | cons e0 es ih =>
    by_cases hs : safeName e0.name = true
    · obtain ⟨e, he, hef⟩ := h
      rcases List.mem_cons.mp he with rfl | hmem
      · rw [hs] at hef
        exact Bool.noConfusion hef
      · cases hx : extractEntry false st0 e0 with
        | ok st2 =>
          simp only [extractLoop, hx]
          exact ih st2 ⟨e, hmem, hef⟩
        | error err => simp [extractLoop, hx, isOkB]
    · have hsf : safeName e0.name = false := by
        cases hy : safeName e0.name
        · rfl
        · exact absurd hy hs
      simp [extractLoop, extractEntry_rejected st0 e0 hsf, isOkB]

theorem storeInsert_mem (p : FsPath) (n : Node) (l : Fs) (pr : FsPath × Node)
    (h : pr ∈ storeInsert p n l) : pr = (p, n) ∨ pr ∈ l := by
  induction l with
  | nil =>
    simp only [storeInsert, List.mem_singleton] at h
    exact Or.inl h
  | cons qr rest ih =>
    revert h
    obtain ⟨q, m⟩ := qr
    intro h
    by_cases hqp : q = p
    · simp only [storeInsert, if_pos hqp] at h
      rcases List.mem_cons.mp h with h1 | h1
      · exact Or.inl h1
      · exact Or.inr (by simp [h1])
    · by_cases hlt : pathLtB q p = true
      · simp only [storeInsert, if_neg hqp, if_pos hlt] at h
        rcases List.mem_cons.mp h with h1 | h1
        · exact Or.inr (by simp [h1])
        · rcases ih h1 with h2 | h2
          · exact Or.inl h2
          · exact Or.inr (by simp [h2])
      · simp only [storeInsert, if_neg hqp, if_neg hlt] at h
        rcases List.mem_cons.mp h with h1 | h1
        · exact Or.inl h1
        · exact Or.inr h1

theorem extractEntry_mem (st0 : Fs) (e0 : EntryModel) (st2 : Fs)
    (pr : FsPath × Node) (h : extractEntry false st0 e0 = Except.ok st2)
    (hpr : pr ∈ st2) :
    pr ∈ st0 ∨ (safeName e0.name = true ∧ pr.1 = splitPath e0.name) := by
  by_cases hs : safeName e0.name = true
  · rw [extractEntry, if_pos (by simp [hs])] at h
    cases he0 : e0.etype with
    | regular =>
      rw [he0] at h
      cases hl : lookupStore (splitPath e0.name) st0 with
      | none =>
        rw [hl] at h
        simp only [Except.ok.injEq] at h
        subst h
        rcases storeInsert_mem _ _ _ pr hpr with h1 | h1
        · exact Or.inr ⟨hs, by rw [h1]⟩
        · exact Or.inl h1
      | some nd =>
        rw [hl] at h
        cases nd with
        | dir mode => simp at h
        | file c mo mt =>
          simp only [Except.ok.injEq] at h
          subst h
          rcases storeInsert_mem _ _ _ pr hpr with h1 | h1
          · exact Or.inr ⟨hs, by rw [h1]⟩
          · exact Or.inl h1
        | symlink t =>
          simp only [Except.ok.injEq] at h
          subst h
          rcases storeInsert_mem _ _ _ pr hpr with h1 | h1
          · exact Or.inr ⟨hs, by rw [h1]⟩
          · exact Or.inl h1
    | directory =>
      rw [he0] at h
      cases hl : lookupStore (splitPath e0.name) st0 with
      | none =>
        rw [hl] at h
        simp only [Except.ok.injEq] at h
        subst h
        rcases storeInsert_mem _ _ _ pr hpr with h1 | h1
        · exact Or.inr ⟨hs, by rw [h1]⟩
        · exact Or.inl h1
      | some nd =>
        rw [hl] at h
        cases nd with
        | file c mo mt => simp at h
        | dir mode =>
          simp only [Except.ok.injEq] at h
          subst h
          rcases storeInsert_mem _ _ _ pr hpr with h1 | h1
          · exact Or.inr ⟨hs, by rw [h1]⟩
          · exact Or.inl h1
        | symlink t =>
          simp only [Except.ok.injEq] at h
          subst h
          rcases storeInsert_mem _ _ _ pr hpr with h1 | h1
          · exact Or.inr ⟨hs, by rw [h1]⟩
          · exact Or.inl h1
    | symlink t =>
      rw [he0] at h
      simp only [Except.ok.injEq] at h
      subst h
      rcases storeInsert_mem _ _ _ pr hpr with h1 | h1
      · exact Or.inr ⟨hs, by rw [h1]⟩
      · exact Or.inl h1
    | hardlink t =>
      rw [he0] at h
      simp only [] at h
      cases hl : lookupStore (splitPath t) st0 with
      | none =>
        rw [hl] at h
        simp at h
      | some nd =>
        rw [hl] at h
        simp only [Except.ok.injEq] at h
        subst h
        rcases storeInsert_mem _ _ _ pr hpr with h1 | h1
        · exact Or.inr ⟨hs, by rw [h1]⟩
        · exact Or.inl h1
    | other c =>
      rw [he0] at h
      simp at h
  · have hsf : safeName e0.name = false := by
      cases hy : safeName e0.name
      · rfl
      · exact absurd hy hs
    rw [extractEntry_rejected st0 e0 hsf] at h
    exact absurd h (by simp)

theorem extractLoop_keys (es : List EntryModel) (st0 st : Fs)
    (h : extractLoop false st0 es = Except.ok st) :
    ∀ pr ∈ st, pr ∈ st0 ∨
      ∃ e ∈ es, safeName e.name = true ∧ pr.1 = splitPath e.name := by
  induction es generalizing st0 with
  | nil =>
    simp only [extractLoop, Except.ok.injEq] at h
    subst h
    intro pr hpr
    exact Or.inl hpr
  | cons e0 es ih =>
    cases hx : extractEntry false st0 e0 with
    | error err =>
      rw [extractLoop, hx] at h
      exact absurd h (by simp)
    | ok st2 =>
      rw [extractLoop, hx] at h
      intro pr hpr
      rcases ih st2 h pr hpr with hmem | ⟨e, he, h1, h2⟩
      · rcases extractEntry_mem st0 e0 st2 pr hx hmem with h3 | ⟨h3, h4⟩
        · exact Or.inl h3
        · exact Or.inr ⟨e0, by simp, h3, h4⟩
      · exact Or.inr ⟨e, by simp [he], h1, h2⟩

theorem walkRoot_missing (fs : Fs) (readable : FsPath → Bool) (root : FsPath)
    (h : lookupStore root fs = none) :
    walkRoot fs readable root = Except.error (TarErr.accessError root) := by
  simp [walkRoot, h]

theorem createPipeline_missing (fs : Fs) (readable : FsPath → Bool)
    (root : FsPath) (h : lookupStore root fs = none) :
    createPipeline fs readable [root] = Except.error (TarErr.accessError root) := by
  simp [createPipeline, walkRoots, walkRoot_missing fs readable root h]

theorem walkRoot_unreadable (fs : Fs) (readable : FsPath → Bool) (root : FsPath)
    (nd : Node) (hroot : lookupStore root fs = some nd)
    (h : ∃ pr ∈ fs, underB root pr.1 = true ∧ readable pr.1 = false) :
    ∃ q, readable q = false ∧
      walkRoot fs readable root = Except.error (TarErr.accessError q) := by
  obtain ⟨pr, hpr, hunder, hrd⟩ := h
  have hmem : pr ∈ fs.filter (fun pr2 => underB root pr2.1) :=
    List.mem_filter.mpr ⟨hpr, hunder⟩
  obtain ⟨q, hq1, hq2⟩ := walkEntries_unreadable readable
    (fs.filter (fun pr2 => underB root pr2.1)) ⟨pr, hmem, hrd⟩
  refine ⟨q, hq1, ?_⟩
  rw [walkRoot, hroot, hq2]

theorem encodeHeader_drop148 (r : RawHeader) :
    (encodeHeader r).drop 148 =
      chkField ((hdrBody r).sum + 256 + (hdrTail r).sum) ++ hdrTail r := by
  have hB : encodeHeader r = hdrBody r ++
      (chkField ((hdrBody r).sum + 256 + (hdrTail r).sum) ++ hdrTail r) := by
    simp only [encodeHeader, List.append_assoc]
  rw [hB]
  exact List.drop_left' (hdrBody_length r)

theorem encodeHeader_take148 (r : RawHeader) :
    (encodeHeader r).take 148 = hdrBody r := by
  have hB : encodeHeader r = hdrBody r ++
      (chkField ((hdrBody r).sum + 256 + (hdrTail r).sum) ++ hdrTail r) := by
    simp only [encodeHeader, List.append_assoc]
  rw [hB]
  exact List.take_left' (hdrBody_length r)

theorem encodeHeader_drop156 (r : RawHeader) :
    (encodeHeader r).drop 156 = hdrTail r := by
  have hB : encodeHeader r = (hdrBody r ++
      chkField ((hdrBody r).sum + 256 + (hdrTail r).sum)) ++ hdrTail r := by
    simp only [encodeHeader, List.append_assoc]
  rw [hB]
  exact List.drop_left' (by
    rw [List.length_append, hdrBody_length, chkField_length])

theorem encodeHeader_chkfield (r : RawHeader) :
    ((encodeHeader r).drop 148).take 8 =
      chkField ((hdrBody r).sum + 256 + (hdrTail r).sum) := by
  rw [encodeHeader_drop148]
  exact List.take_left' (chkField_length _)

theorem chkSumOf_encodeHeader (r : RawHeader) :
    chkSumOf (encodeHeader r) = (hdrBody r).sum + 256 + (hdrTail r).sum := by
  rw [chkSumOf_split, encodeHeader_take148, encodeHeader_drop156]

theorem chkSum_bound (r : RawHeader) (hname : bytesOk r.name = true)
    (hlink : bytesOk r.linkname = true) (htf : r.typeflag < 256) :
    (hdrBody r).sum + 256 + (hdrTail r).sum < 8 ^ 6 := by
  have h1 := sum_le_of_bytes _ (mem_hdrBody_lt r hname)
  have h2 := sum_le_of_bytes _ (mem_hdrTail_lt r hlink htf)
  rw [hdrBody_length] at h1
  rw [hdrTail_length] at h2
  have h86 : (8 : Nat) ^ 6 = 262144 := by norm_num
  rw [h86]
  omega

theorem validRaw_parts (r : RawHeader) (h : validRawB r = true) :
    bytesOk r.name = true ∧ bytesOk r.linkname = true ∧ r.typeflag < 256 := by
  simp only [validRawB, Bool.and_eq_true, decide_eq_true_eq] at h
  exact ⟨h.1.1.1.1.1.1.1.1.1, h.1.1.1.1.1.1.1.2, h.2⟩

/-- C1: for every directory tree T (including empty files, nested
directories, symlinks, names beyond 100 bytes, Unicode names and binary
content), extracting the archive produced by writing the walk of T —
`extract(write(walk(T)))` — reproduces T's structure and byte-exact file
contents. -/
theorem claim_C1 (fs : Fs) (h : wellFormedFs fs = true) :
    roundTrip fs = Except.ok fs :=
  roundTrip_ok fs h

theorem claim_C1_witness :
    wellFormedFs fsWitness = true ∧ roundTrip fsWitness = Except.ok fsWitness :=
  ⟨by decide, claim_C1 fsWitness (by decide)⟩

/-- C2: an archive-creation invocation with zero selected entries fails with
the specific "empty archive" error, and `create_archive` — the only code
that would write archive bytes — is never reached, so the failure precedes
any byte written to the archive file. -/
theorem claim_C2 (m : CliMatches) (f : String) (h1 : m.extract = false)
    (h2 : m.create = true) (h3 : m.file = some f) (h4 : m.files = []) :
    uumain m = Except.error
      ⟨1, "tar: Cowardly refusing to create an empty archive"⟩ ∧
    reachedCreate (uumain m) = false := by
  constructor <;> simp [uumain, reachedCreate, h1, h2, h3, h4]

theorem claim_C2_witness :
    uumain (CliMatches.mk false true (some "archive.tar") [] false) =
      Except.error ⟨1, "tar: Cowardly refusing to create an empty archive"⟩ ∧
    reachedCreate
      (uumain (CliMatches.mk false true (some "archive.tar") [] false)) = false :=
  claim_C2 _ "archive.tar" rfl rfl rfl rfl

/-- C3: in every encoded 512-byte header block, the stored checksum equals
the unsigned sum of all 512 header bytes with the 8-byte checksum field
treated as eight ASCII spaces, and it is encoded as a 6-digit octal string
followed by NUL and space. -/
theorem claim_C3 (r : RawHeader) (h : validRawB r = true) :
    ((encodeHeader r).drop 148).take 8 =
      octDigits 6 (chkSumOf (encodeHeader r)) ++ [0, 32] ∧
    parseOct (((encodeHeader r).drop 148).take 8) = chkSumOf (encodeHeader r) := by
  obtain ⟨hn, hl, htf⟩ := validRaw_parts r h
  have hb := chkSum_bound r hn hl htf
  constructor
  · rw [encodeHeader_chkfield, chkSumOf_encodeHeader]
    rfl
  · rw [encodeHeader_chkfield, parseOct_chkField _ hb, chkSumOf_encodeHeader]

theorem claim_C3_witness :
    validRawB rawWitness = true ∧
    (((encodeHeader rawWitness).drop 148).take 8 =
      octDigits 6 (chkSumOf (encodeHeader rawWitness)) ++ [0, 32] ∧
    parseOct (((encodeHeader rawWitness).drop 148).take 8) =
      chkSumOf (encodeHeader rawWitness)) :=
  ⟨by decide, claim_C3 rawWitness (by decide)⟩

/-- C4: for every 512-byte block that decodes successfully and every
single-byte flip at a non-checksum offset (below 148 or at/after 156),
decoding the modified block fails with a checksum error — never a silent
misread. -/
theorem claim_C4 (B : List Nat) (r : RawHeader) (i v : Nat)
    (hok : decodeHeader B = Except.ok r)
    (hi : i < 148 ∨ (156 ≤ i ∧ i < 512)) (hv : v < 256)
    (hne : v ≠ B.getD i 0) :
    decodeHeader (B.set i v) = Except.error TarErr.checksumError :=
  decode_flip B r i v hok hi hv hne

theorem claim_C4_witness :
    decodeHeader ((encodeHeader rawWitness).set 0 98) =
      Except.error TarErr.checksumError :=
  claim_C4 (encodeHeader rawWitness) rawWitness 0 98
    (decode_encode rawWitness (by decide)) (Or.inl (by norm_num))
    (by norm_num) (by decide)

/-- C5: a stream of exactly two all-zero 512-byte blocks decodes to the
empty entry sequence; every archive the writer produces ends with exactly
the two all-zero terminator blocks (and without them the reader reports
truncation); and an all-zero block is never a legal entry header. -/
theorem claim_C5 :
    readArchive (zeros 1024) = Except.ok [] ∧
    (∀ es : List EntryModel, writeArchive es = writeBody es ++ zeros 1024) ∧
    decodeHeader (zeros 512) = Except.error TarErr.checksumError ∧
    (∀ es : List EntryModel, validEntriesB es = true →
      readArchive (writeBody es) = Except.error TarErr.truncatedArchive) := by
  refine ⟨?_, fun es => rfl, ?_, fun es h => read_writeBody_truncated es h⟩
  · unfold readArchive
    rw [zeros_length]
    exact readLoop_term none none 1024
  · decide

theorem claim_C5_witness :
    readArchive (zeros 1024) = Except.ok [] ∧
    writeArchive [okEntryW] = writeBody [okEntryW] ++ zeros 1024 ∧
    validEntriesB [okEntryW] = true ∧
    readArchive (writeBody [okEntryW]) = Except.error TarErr.truncatedArchive :=
  ⟨claim_C5.1, claim_C5.2.1 [okEntryW], by decide,
    claim_C5.2.2.2 [okEntryW] (by decide)⟩

/-- C6: during extraction (without absolute-names mode) every entry whose
name would escape the destination root — absolute names or `..` segments,
such as `../../etc/passwd` — is rejected with the unsafe-path error and
extraction never succeeds; and on success every path materialized in the
destination store is the verbatim split of some safe entry name, so unsafe
paths are never written and names are never silently sanitized. -/
theorem claim_C6 :
    (∀ es : List EntryModel, (∃ e ∈ es, safeName e.name = false) →
      isOkB (extractEntries false es) = false) ∧
    (∀ (es : List EntryModel) (st : Fs), extractEntries false es = Except.ok st →
      ∀ pr ∈ st, ∃ e ∈ es, safeName e.name = true ∧ pr.1 = splitPath e.name) := by
  constructor
  · intro es h
    exact extractLoop_rejected es [] h
  · intro es st h pr hpr
    rcases extractLoop_keys es [] st h pr hpr with hmem | hgood
    · exact absurd hmem (List.not_mem_nil pr)
    · exact hgood

theorem claim_C6_witness :
    (∃ e ∈ [badEntryW], safeName e.name = false) ∧
    isOkB (extractEntries false [badEntryW]) = false ∧
    extractEntry false [] badEntryW =
      Except.error (TarErr.unsafePathError badEntryW.name) ∧
    (∃ e ∈ [okEntryW], safeName e.name = true ∧
      ([[97, 46, 116, 120, 116]] : FsPath) = splitPath e.name) :=
  ⟨by decide, claim_C6.1 [badEntryW] (by decide), by decide,
    claim_C6.2 [okEntryW] stW (by decide)
      ([[97, 46, 116, 120, 116]], Node.file [120] 420 0) (by decide)⟩

/-- C7: `TarError::code` gives the `InvalidArchive` variant the distinct
positive code 2, different from the code 1 used for I/O, not-found,
permission and generic operation failures; every code is positive. -/
theorem claim_C7 (e : TarError) (s : String) :
    0 < TarError.code e ∧ TarError.code (TarError.invalidArchive s) = 2 ∧
    (TarError.code e = 2 ↔ TarError.isInvalidArchive e = true) := by
  cases e <;> simp [TarError.code, TarError.isInvalidArchive]

/-- C8: the name encoder picks the minimal encoding — an entry whose name
and link target fit in 100 bytes is serialized as the plain header plus
payload with no extension blocks, an entry whose name exceeds 100 bytes is
preceded by a long-name extension block, and every valid entry (any
NUL-free name, e.g. 250 bytes long) round-trips byte-exactly through
write/read. -/
theorem claim_C8 :
    (∀ e : EntryModel, e.name.length ≤ 100 → (linkOf e.etype).length ≤ 100 →
      encodeEntry e = encodeHeader (hdrOf e) ++ padData e.data) ∧
    (∀ e : EntryModel, 100 < e.name.length →
      ∃ rest, encodeEntry e = auxBlock 76 e.name ++ rest) ∧
    (∀ e : EntryModel, validEntryB e = true →
      readArchive (writeArchive [e]) = Except.ok [e]) := by
  refine ⟨?_, ?_, ?_⟩
  · intro e hn hl
    simp [encodeEntry, Nat.not_lt.mpr hn, Nat.not_lt.mpr hl]
  · intro e hn
    refine ⟨(if 100 < (linkOf e.etype).length then auxBlock 75 (linkOf e.etype)
      else []) ++ (encodeHeader (hdrOf e) ++ padData e.data), ?_⟩
    simp [encodeEntry, hn, List.append_assoc]
  · intro e h
    exact read_write [e] (by simp [validEntriesB, h])

theorem claim_C8_witness :
    e90W.name.length = 90 ∧ e250W.name.length = 250 ∧
    encodeEntry e90W = encodeHeader (hdrOf e90W) ++ padData e90W.data ∧
    (∃ rest, encodeEntry e250W = auxBlock 76 e250W.name ++ rest) ∧
    readArchive (writeArchive [e250W]) = Except.ok [e250W] :=
  ⟨by decide, by decide, claim_C8.1 e90W (by decide) (by decide),
    claim_C8.2.1 e250W (by decide), claim_C8.2.2 e250W (by decide)⟩

/-- C9: a walk over a nonexistent root fails with an access error naming
that root, and so does the whole create pipeline built on it; a walk whose
snapshot contains an unreadable path aborts with an access error naming an
unreadable path. -/
theorem claim_C9 :
    (∀ (fs : Fs) (readable : FsPath → Bool) (root : FsPath),
      lookupStore root fs = none →
      walkRoot fs readable root = Except.error (TarErr.accessError root) ∧
      createPipeline fs readable [root] = Except.error (TarErr.accessError root)) ∧
    (∀ (readable : FsPath → Bool) (fs : Fs),
      (∃ pr ∈ fs, readable pr.1 = false) →
      ∃ q, readable q = false ∧
        walkEntries readable fs = Except.error (TarErr.accessError q)) := by
  constructor
  · intro fs readable root h
    exact ⟨walkRoot_missing fs readable root h,
      createPipeline_missing fs readable root h⟩
  · intro readable fs h
    exact walkEntries_unreadable readable fs h

theorem claim_C9_witness :
    lookupStore root9W fs9W = none ∧
    (walkRoot fs9W (fun _ => true) root9W =
        Except.error (TarErr.accessError root9W) ∧
      createPipeline fs9W (fun _ => true) [root9W] =
        Except.error (TarErr.accessError root9W)) ∧
    (∃ q, rd9W q = false ∧
      walkEntries rd9W fs9W = Except.error (TarErr.accessError q)) :=
  ⟨by decide, claim_C9.1 fs9W (fun _ => true) root9W (by decide),
    claim_C9.2 rd9W fs9W (by decide)⟩

/-- C10: when both the create and extract flags are given together with an
archive file, `uumain` performs the extract operation (the extract flag is
checked first), never reaches the create branch, and reports no conflict
error. -/
theorem claim_C10 (f : String) (files : List String) (v : Bool) :
    uumain (CliMatches.mk true true (some f) files v) =
      Except.ok (UuAction.extracted f) ∧
    reachedCreate (uumain (CliMatches.mk true true (some f) files v)) = false := by
  constructor <;> simp [uumain, reachedCreate]

end TarSpec
